import Mathlib

/-!
# Day 3 scanner and parser (`src/day3.cpp`)

A shallow embedding of the `Tokenizer` and `Parser` classes of `day3.cpp`.

* `std::string` is a `List Char`; `code[m_current]` is `List.getD` with the
  terminating NUL as default, which is what `std::string::operator[]` yields
  at `pos == size()`.  The `<cctype>` tests are those of the "C" locale, in
  which a character outside ASCII belongs to no class.
* `size_t` cursors are natural numbers.  They only ever count consumed
  characters, so they stay below `code.length + 2`; the one subtraction
  (`add_token`) is modelled with its 64-bit wraparound.
* `int` is `Int`, every `int` operation of `Parser::parse` is reduced with
  `wrap_int` (two's complement, 32 bit).
* `while` loops are recursive functions on a fuel argument; every caller
  passes the number of unread characters, which bounds the iteration count:
  `skip_whitespace_loop_eq`, `identifier_loop_eq` and `number_loop_eq` give
  the state in which a loop stops, the same for every fuel that is at least
  the number of unread characters, and `scan_tokens_stops_at_end` shows that
  the loop of `scan_tokens` returns `Ok` only with the cursor at the end of
  the input, where the `while` condition of the source is false.
* The `for` loop of `Parser::parse` is a fold over the indices `0 .. size-1`.
* Mutable members are passed explicitly: a method returns its value together
  with the new object state.
-/

namespace Day3

/-! ## `<cctype>` in the "C" locale -/

/-- The classification `std::isalpha` for the "C" locale. -/
def isalpha (c : Char) : Bool :=
  (65 ≤ c.toNat && c.toNat ≤ 90) || (97 ≤ c.toNat && c.toNat ≤ 122)

/-- The classification `std::isdigit`. -/
def isdigit (c : Char) : Bool :=
  48 ≤ c.toNat && c.toNat ≤ 57

/-- The classification `std::isalnum`. -/
def isalnum (c : Char) : Bool :=
  isalpha c || isdigit c

/-- The classification `std::ispunct` for the "C" locale: the printable
characters that are neither alphanumeric nor the space. -/
def ispunct (c : Char) : Bool :=
  (33 ≤ c.toNat && c.toNat ≤ 47) || (58 ≤ c.toNat && c.toNat ≤ 64) ||
  (91 ≤ c.toNat && c.toNat ≤ 96) || (123 ≤ c.toNat && c.toNat ≤ 126)

/-- The classification `std::isspace` for the "C" locale (used by `std::stoi`). -/
def isspace (c : Char) : Bool :=
  c.toNat = 32 || (9 ≤ c.toNat && c.toNat ≤ 13)

/-! ## Data model -/

inductive TokenType where
  | Identifier
  | NumberLiteral
  | Operator
  | Punctuation
  | Eof
deriving DecidableEq, Repr

structure TokenizeError where
  m_line : Nat
  m_column : Nat
  m_message : List Char
deriving DecidableEq, Repr

structure Token where
  type : TokenType
  lexeme : List Char
  line : Nat
  column : Nat
deriving DecidableEq, Repr

/-- Modelled from the spec: `result.h` is not among the sources. `Result<T, E>`
is the tagged union of `Ok(T)` and `Err(E)`; `Except.ok` is `Ok` and
`Except.error` is `Err`. -/
abbrev Result (T E : Type) : Type := Except E T

/-- Modelled from the spec: `result.h` is not among the sources. The test
`is_err()` for which case a `Result` holds. -/
def is_err {T E : Type} (r : Result T E) : Bool :=
  match r with
  | .ok _ => false
  | .error _ => true

/-- The modulus of `size_t` arithmetic. -/
def SIZE_MOD : Nat := 18446744073709551616

/-- Unsigned subtraction `a - b` on `size_t`. -/
def size_sub (a b : Nat) : Nat :=
  (a % SIZE_MOD + (SIZE_MOD - b % SIZE_MOD)) % SIZE_MOD

/-- The substring `code.substr(pos, n)`. -/
def substr (code : List Char) (pos n : Nat) : List Char :=
  (code.drop pos).take n

/-! ## Tokenizer -/

structure Tokenizer where
  m_line : Nat := 0
  m_column : Nat := 0
  m_current : Nat := 0
  m_tokens : List Token := []
deriving DecidableEq, Repr

namespace Tokenizer

def is_at_end (self : Tokenizer) (code : List Char) : Bool :=
  decide (self.m_current ≥ code.length)

def peek (self : Tokenizer) (code : List Char) : Char :=
  if self.is_at_end code then Char.ofNat 0 else code.getD self.m_current (Char.ofNat 0)

def peek_next (self : Tokenizer) (code : List Char) : Char :=
  if self.m_current + 1 ≥ code.length then Char.ofNat 0
  else code.getD (self.m_current + 1) (Char.ofNat 0)

def advance (self : Tokenizer) (code : List Char) : Char × Tokenizer :=
  let c := code.getD self.m_current (Char.ofNat 0)
  let s := { self with m_current := self.m_current + 1 }
  if c = Char.ofNat 10 then
    (c, { s with m_line := s.m_line + 1, m_column := 1 })
  else
    (c, { s with m_column := s.m_column + 1 })

def add_token (self : Tokenizer) (type : TokenType) (lexeme : List Char) : Tokenizer :=
  { self with
    m_tokens := self.m_tokens ++ [Token.mk type lexeme self.m_line
      (size_sub self.m_column lexeme.length)] }

/-- The test `c == ' ' || c == '\r' || c == '\t' || c == '\n'` of `skip_whitespace`. -/
def is_skipped (c : Char) : Bool :=
  c = ' ' || c = Char.ofNat 13 || c = Char.ofNat 9 || c = Char.ofNat 10

/-- The loop of `skip_whitespace`. -/
def skip_whitespace_loop (code : List Char) : Nat → Tokenizer → Tokenizer
  | 0, t => t
  | fuel + 1, t =>
    if !t.is_at_end code then
      let c := t.peek code
      if is_skipped c then
        skip_whitespace_loop code fuel (t.advance code).2
      else t
    else t

def skip_whitespace (self : Tokenizer) (code : List Char) : Tokenizer :=
  skip_whitespace_loop code (code.length - self.m_current) self

/-- The loop of `identifier`. -/
def identifier_loop (code : List Char) : Nat → Tokenizer → Tokenizer
  | 0, t => t
  | fuel + 1, t =>
    if !t.is_at_end code && (isalnum (t.peek code) || t.peek code = '_') then
      identifier_loop code fuel (t.advance code).2
    else t

def identifier (self : Tokenizer) (code : List Char) :
    Result Unit TokenizeError × Tokenizer :=
  let start := self.m_current
  let t := identifier_loop code (code.length - self.m_current) self
  let lexeme := substr code start (t.m_current - start)
  (.ok (), t.add_token TokenType.Identifier lexeme)

/-- The loop of `number`. -/
def number_loop (code : List Char) : Nat → Tokenizer → Tokenizer
  | 0, t => t
  | fuel + 1, t =>
    if !t.is_at_end code && isdigit (t.peek code) then
      number_loop code fuel (t.advance code).2
    else t

def number (self : Tokenizer) (code : List Char) :
    Result Unit TokenizeError × Tokenizer :=
  let start := self.m_current
  let t := number_loop code (code.length - self.m_current) self
  let lexeme := substr code start (t.m_current - start)
  (.ok (), t.add_token TokenType.NumberLiteral lexeme)

/-- The message `fmt::format("Unrecognized character: {}", lexeme)`. -/
def unrecognized_message (lexeme : List Char) : List Char :=
  "Unrecognized character: ".toList ++ lexeme

/-- The message `fmt::format("Unexepcted character: '{}'", c)`. -/
def unexpected_message (c : Char) : List Char :=
  "Unexepcted character: ".toList ++ [Char.ofNat 39, c, Char.ofNat 39]

/-- The first character test of `operator_or_punct`. -/
def is_operator_char (c : Char) : Bool :=
  c = '+' || c = '-' || c = '*' || c = '/' || c = '%' || c = '&'
    || c = '|' || c = '^' || c = '~' || c = '@' || c = ':'
    || c = '$' || c = '?' || c = '#' || c = '>' || c = '<'
    || c = '!'

/-- The second character test of `operator_or_punct`. -/
def is_punct_char (c : Char) : Bool :=
  c = ';' || c = ',' || c = Char.ofNat 39 || c = '.' || c = '('
    || c = ')' || c = Char.ofNat 123 || c = Char.ofNat 125 || c = '[' || c = ']'
    || c = Char.ofNat 34

def operator_or_punct (self : Tokenizer) (code : List Char) :
    Result Unit TokenizeError × Tokenizer :=
  let c := self.peek code
  let lexeme := [c]
  let t := (self.advance code).2
  if is_operator_char c then
    (.ok (), t.add_token TokenType.Operator lexeme)
  else if is_punct_char c then
    (.ok (), t.add_token TokenType.Punctuation lexeme)
  else
    (.error (TokenizeError.mk t.m_line t.m_column
      (unrecognized_message lexeme)), t)

/-- The loop of `scan_tokens`. A helper's result `res` that is an error is
returned as it is (`return res.unwrap_err();`). -/
def scan_tokens_loop (code : List Char) :
    Nat → Tokenizer → Result Unit TokenizeError × Tokenizer
  | 0, t => (.ok (), t)
  | fuel + 1, t =>
    if !t.is_at_end code then
      let t1 := t.skip_whitespace code
      if t1.is_at_end code then (.ok (), t1)
      else
        let c := t1.peek code
        if isalpha c || c = '_' then
          let res := t1.identifier code
          if is_err res.1 then res else scan_tokens_loop code fuel res.2
        else if isdigit c then
          let res := t1.number code
          if is_err res.1 then res else scan_tokens_loop code fuel res.2
        else if ispunct c then
          let res := t1.operator_or_punct code
          if is_err res.1 then res else scan_tokens_loop code fuel res.2
        else
          (.error (TokenizeError.mk t1.m_line t1.m_column (unexpected_message c)), t1)
    else (.ok (), t)

def scan_tokens (self : Tokenizer) (code : List Char) :
    Result Unit TokenizeError × Tokenizer :=
  scan_tokens_loop code (code.length - self.m_current) self

/-- The method `tokenize`: the result and the state the object is left in.
`TRY(scan_tokens(code))` returns an error of `scan_tokens` at once (the
propagation form of `result.h`, as the specification describes it). -/
def tokenize (self : Tokenizer) (code : List Char) :
    Result (List Token) TokenizeError × Tokenizer :=
  let s := { self with m_line := 1, m_column := 1, m_current := 0, m_tokens := [] }
  match s.scan_tokens code with
  | (.error e, s1) => (.error e, s1)
  | (.ok _, s1) =>
    let s2 := { s1 with
      m_tokens := s1.m_tokens ++ [Token.mk TokenType.Eof [] s1.m_line s1.m_column] }
    (.ok s2.m_tokens, s2)

end Tokenizer

/-! ## Parser -/

/-- The function `ends_with`: `std::equal` over the reversed ranges. -/
def ends_with (value ending : List Char) : Bool :=
  if ending.length > value.length then false
  else decide (value.reverse.take ending.length = ending.reverse)

/-- What can go wrong while `Parser::parse` runs: an element access
`tokens[k]` with `k` outside the vector, and the two exceptions of `std::stoi`. -/
inductive Fault where
  | index_out_of_range
  | invalid_argument
  | out_of_range
deriving DecidableEq, Repr

def INT_MAX : Int := 2147483647

def INT_MIN : Int := -2147483648

/-- Reduction of an `int` result to 32 bits, two's complement. -/
def wrap_int (x : Int) : Int :=
  (x + 2147483648) % 4294967296 - 2147483648

/-- The value of a run of decimal digits. -/
def digits_value (ds : List Char) : Nat :=
  ds.foldl (fun acc d => 10 * acc + (d.toNat - 48)) 0

/-- The function `std::stoi(str)` (base 10): leading white space is skipped, an
optional sign is read, then the longest run of digits; no digit at all is
`std::invalid_argument`, a value outside `int` is `std::out_of_range`. -/
def stoi (str : List Char) : Except Fault Int :=
  let s1 := str.dropWhile isspace
  let neg := decide (s1.head? = some '-')
  let s2 := if s1.head? = some '-' ∨ s1.head? = some '+' then s1.tail else s1
  let ds := s2.takeWhile isdigit
  if ds.isEmpty then .error Fault.invalid_argument
  else
    let v : Int := if neg then -(digits_value ds : Int) else (digits_value ds : Int)
    if v < INT_MIN ∨ INT_MAX < v then .error Fault.out_of_range
    else .ok v

/-- The element access `tokens[k]`. -/
def at_index (tokens : List Token) (k : Nat) : Except Fault Token :=
  match tokens[k]? with
  | some t => .ok t
  | none => .error Fault.index_out_of_range

/-- The test `tokens[k].type == type`. -/
def type_is (tokens : List Token) (k : Nat) (type : TokenType) : Except Fault Bool :=
  (at_index tokens k).map (fun t => decide (t.type = type))

/-- The test `tokens[k].lexeme == lexeme`. -/
def lexeme_is (tokens : List Token) (k : Nat) (lexeme : List Char) : Except Fault Bool :=
  (at_index tokens k).map (fun t => decide (t.lexeme = lexeme))

/-- The test `ends_with(tokens[k].lexeme, ending)`. -/
def lexeme_ends_with (tokens : List Token) (k : Nat) (ending : List Char) :
    Except Fault Bool :=
  (at_index tokens k).map (fun t => ends_with t.lexeme ending)

/-- A chain `c₁ && c₂ && ... && cₙ`: operands are evaluated from the left and
evaluation stops at the first that is false. -/
def all_of : List (Except Fault Bool) → Except Fault Bool
  | [] => .ok true
  | c :: rest =>
    match c with
    | .ok true => all_of rest
    | .ok false => .ok false
    | .error e => .error e

structure Parser where
  m_enabled : Bool := true
  m_amount : Int := 0
  m_uncorrected_amount : Int := 0
deriving DecidableEq, Repr

namespace Parser

/-- The condition of the first `if` of the loop body. -/
def enable_cond (tokens : List Token) (i : Nat) : Except Fault Bool :=
  all_of [
    .ok (decide (i + 2 < tokens.length)),
    type_is tokens i TokenType.Identifier,
    lexeme_is tokens i "do".toList,
    type_is tokens (i + 1) TokenType.Punctuation,
    lexeme_is tokens (i + 1) "(".toList,
    type_is tokens (i + 2) TokenType.Punctuation,
    lexeme_is tokens (i + 2) ")".toList]

/-- The condition of the second `if` of the loop body. -/
def disable_cond (tokens : List Token) (i : Nat) : Except Fault Bool :=
  all_of [
    .ok (decide (i + 5 < tokens.length)),
    type_is tokens i TokenType.Identifier,
    type_is tokens (i + 1) TokenType.Punctuation,
    lexeme_is tokens (i + 1) [Char.ofNat 39],
    type_is tokens (i + 2) TokenType.Identifier,
    lexeme_is tokens (i + 2) "t".toList,
    type_is tokens (i + 3) TokenType.Punctuation,
    lexeme_is tokens (i + 3) "(".toList,
    type_is tokens (i + 4) TokenType.Punctuation,
    lexeme_is tokens (i + 4) ")".toList]

/-- The condition of the third `if` of the loop body. -/
def mul_cond (tokens : List Token) (i : Nat) : Except Fault Bool :=
  all_of [
    .ok (decide (i + 4 < tokens.length)),
    type_is tokens i TokenType.Identifier,
    lexeme_ends_with tokens i "mul".toList,
    type_is tokens (i + 1) TokenType.Punctuation,
    lexeme_is tokens (i + 1) "(".toList,
    type_is tokens (i + 2) TokenType.NumberLiteral,
    type_is tokens (i + 3) TokenType.Punctuation,
    lexeme_is tokens (i + 3) ",".toList,
    type_is tokens (i + 4) TokenType.NumberLiteral]

/-- The condition of the `if` nested in the third. -/
def close_cond (tokens : List Token) (i : Nat) : Except Fault Bool :=
  all_of [
    .ok (decide (i + 5 < tokens.length)),
    type_is tokens (i + 5) TokenType.Punctuation,
    lexeme_is tokens (i + 5) ")".toList]

/-- One iteration of the `for` loop of `parse`, at index `i`. -/
def parse_step (tokens : List Token) (self : Parser) (i : Nat) : Except Fault Parser := do
  let c1 ← enable_cond tokens i
  let p1 := if c1 then { self with m_enabled := true } else self
  let c2 ← disable_cond tokens i
  let p2 := if c2 then { p1 with m_enabled := false } else p1
  let c3 ← mul_cond tokens i
  if c3 then
    let c4 ← close_cond tokens i
    if c4 then
      let t2 ← at_index tokens (i + 2)
      let num1 ← stoi t2.lexeme
      let t4 ← at_index tokens (i + 4)
      let num2 ← stoi t4.lexeme
      let p3 :=
        if p2.m_enabled then
          { p2 with m_amount := wrap_int (p2.m_amount + wrap_int (num1 * num2)) }
        else p2
      pure { p3 with
        m_uncorrected_amount := wrap_int (p3.m_uncorrected_amount + wrap_int (num1 * num2)) }
    else pure p2
  else pure p2

/-- The method `parse`: the loop `for (size_t i = 0; i < tokens.size(); ++i)`. -/
def parse (self : Parser) (tokens : List Token) : Except Fault Parser :=
  (List.range tokens.length).foldlM (parse_step tokens) self

def amount (self : Parser) : Int := self.m_amount

def uncorrected_amount (self : Parser) : Int := self.m_uncorrected_amount

end Parser

/-- The built-in input of `day3`. -/
def default_input : List Char :=
  "xmul(2,4)%&mul[3,7]!@^do_not_mul(5,5)+mul(32,64]then(mul(11,8)mul(8,5))".toList

/-- The function `day3`: its exit status together with the two amounts it logs
on success (`Uncorrected amount`, `Corrected amount`); an exception that escapes
`parse` is a fault. -/
def day3 (maybe_input : Option (List Char)) : Except Fault (Int × Option (Int × Int)) :=
  let input := maybe_input.getD default_input
  match (Tokenizer.tokenize {} input).1 with
  | .error _ => .ok (1, none)
  | .ok tokens =>
    match Parser.parse {} tokens with
    | .error f => .error f
    | .ok parser => .ok (0, some (parser.uncorrected_amount, parser.amount))

/-! ## Definitions used to state and prove the properties -/

/-- The effect of `advance` on the cursor when the character read is `c`. -/
def step_char (t : Tokenizer) (c : Char) : Tokenizer :=
  if c = Char.ofNat 10 then
    { t with m_current := t.m_current + 1, m_line := t.m_line + 1, m_column := 1 }
  else
    { t with m_current := t.m_current + 1, m_column := t.m_column + 1 }

/-- The cursor after `advance` has read the characters `w` one after the other. -/
def advance_over (t : Tokenizer) (w : List Char) : Tokenizer :=
  w.foldl step_char t

/-- The test under which the loop of `identifier` goes on. -/
def is_ident_char (c : Char) : Bool :=
  isalnum c || c = '_'

/-- A character that some branch of the scanner accepts: white space, a letter,
an underscore, a digit, an operator character or a punctuation character. -/
def scannable (c : Char) : Bool :=
  Tokenizer.is_skipped c || isalpha c || c = '_' || isdigit c
    || Tokenizer.is_operator_char c || Tokenizer.is_punct_char c

/-- The lexemes of a token sequence, concatenated in order. -/
def lexemes (tokens : List Token) : List Char :=
  (tokens.map Token.lexeme).flatten

/-- What one run of the loop of `scan_tokens` achieves, started at state `t`
with `rest` still unread, when it returns `out`: either it succeeds, it has
read all of the input and has appended tokens `new` that spell `rest` without
its white space, or it fails and `rest` holds a character no branch accepts. -/
def ScanSpec (code : List Char) (t : Tokenizer) (rest : List Char)
    (out : Result Unit TokenizeError × Tokenizer) : Prop :=
  (∃ t1 new, out = (.ok (), t1) ∧ t1.m_tokens = t.m_tokens ++ new ∧
      (∀ k ∈ new, k.type ≠ TokenType.Eof) ∧
      lexemes new = rest.filter (fun c => !Tokenizer.is_skipped c) ∧
      (∀ c ∈ rest, scannable c = true) ∧
      code.length ≤ t1.m_current ∧
      ((∀ c ∈ rest, Tokenizer.is_skipped c = true) → new = [])) ∨
  (∃ e t1, out = (.error e, t1) ∧ ∃ c ∈ rest, scannable c = false)

/-! ### The patterns of the parser, as the specification words them -/

/-- The token at position `k` exists and satisfies `p`. -/
def tok_is (tokens : List Token) (k : Nat) (p : Token → Bool) : Bool :=
  match tokens[k]? with
  | some t => p t
  | none => false

/-- A token of kind `type` whose lexeme is exactly `lexeme`. -/
def is_a (type : TokenType) (lexeme : List Char) (t : Token) : Bool :=
  decide (t.type = type) && decide (t.lexeme = lexeme)

/-- A token of kind `type`, whatever its lexeme. -/
def has_type (type : TokenType) (t : Token) : Bool :=
  decide (t.type = type)

/-- An `Identifier` whose lexeme ends with `mul`. -/
def is_mul_identifier (t : Token) : Bool :=
  decide (t.type = TokenType.Identifier) && ends_with t.lexeme "mul".toList

/-- The enable pattern (3 tokens) at index `i`: `Identifier("do")`,
`Punctuation("(")`, `Punctuation(")")`. -/
def enable_pattern (tokens : List Token) (i : Nat) : Bool :=
  tok_is tokens i (is_a TokenType.Identifier "do".toList) &&
  tok_is tokens (i + 1) (is_a TokenType.Punctuation "(".toList) &&
  tok_is tokens (i + 2) (is_a TokenType.Punctuation ")".toList)

/-- The disable pattern (5 tokens) at index `i`: `Identifier(any)`,
`Punctuation("'")`, `Identifier("t")`, `Punctuation("(")`, `Punctuation(")")`. -/
def disable_pattern (tokens : List Token) (i : Nat) : Bool :=
  tok_is tokens i (has_type TokenType.Identifier) &&
  tok_is tokens (i + 1) (is_a TokenType.Punctuation [Char.ofNat 39]) &&
  tok_is tokens (i + 2) (is_a TokenType.Identifier "t".toList) &&
  tok_is tokens (i + 3) (is_a TokenType.Punctuation "(".toList) &&
  tok_is tokens (i + 4) (is_a TokenType.Punctuation ")".toList)

/-- The multiply pattern (6 tokens) at index `i`: an `Identifier` whose lexeme
ends with `mul`, `Punctuation("(")`, `NumberLiteral`, `Punctuation(",")`,
`NumberLiteral`, `Punctuation(")")`. -/
def mul_pattern (tokens : List Token) (i : Nat) : Bool :=
  tok_is tokens i is_mul_identifier &&
  tok_is tokens (i + 1) (is_a TokenType.Punctuation "(".toList) &&
  tok_is tokens (i + 2) (has_type TokenType.NumberLiteral) &&
  tok_is tokens (i + 3) (is_a TokenType.Punctuation ",".toList) &&
  tok_is tokens (i + 4) (has_type TokenType.NumberLiteral) &&
  tok_is tokens (i + 5) (is_a TokenType.Punctuation ")".toList)

/-- The product of the two numbers of a multiply pattern at index `i`. -/
def mul_value (tokens : List Token) (i : Nat) : Int :=
  match tokens[i + 2]?, tokens[i + 4]? with
  | some a, some b => (digits_value a.lexeme : Int) * (digits_value b.lexeme : Int)
  | _, _ => 0

/-- The most recent index `j ≤ i` at which the enable pattern or the disable
pattern matches, if there is one. -/
def last_toggle (tokens : List Token) : Nat → Option Nat
  | 0 => if enable_pattern tokens 0 || disable_pattern tokens 0 then some 0 else none
  | i + 1 =>
    if enable_pattern tokens (i + 1) || disable_pattern tokens (i + 1) then some (i + 1)
    else last_toggle tokens i

/-- The gate at index `i`: the most recent enable or disable match at an index
`j ≤ i` is an enable match, or there is none. -/
def gate_open (tokens : List Token) (i : Nat) : Bool :=
  match last_toggle tokens i with
  | none => true
  | some j => enable_pattern tokens j

/-- The sum of the products over the indices below `k` at which the multiply
pattern matches. -/
def ungated_upto (tokens : List Token) (k : Nat) : Int :=
  (((List.range k).filter (mul_pattern tokens)).map (mul_value tokens)).sum

/-- The same sum restricted to the indices at which the gate is open. -/
def gated_upto (tokens : List Token) (k : Nat) : Int :=
  (((List.range k).filter (fun i => mul_pattern tokens i && gate_open tokens i)).map
    (mul_value tokens)).sum

/-- The ungated sum the specification asks for. -/
def ungated_spec (tokens : List Token) : Int :=
  ungated_upto tokens tokens.length

/-- The gated sum the specification asks for. -/
def gated_spec (tokens : List Token) : Int :=
  gated_upto tokens tokens.length

/-- The first five tokens of the multiply pattern, the test of the third `if`. -/
def mul_head (tokens : List Token) (i : Nat) : Bool :=
  tok_is tokens i is_mul_identifier &&
  tok_is tokens (i + 1) (is_a TokenType.Punctuation "(".toList) &&
  tok_is tokens (i + 2) (has_type TokenType.NumberLiteral) &&
  tok_is tokens (i + 3) (is_a TokenType.Punctuation ",".toList) &&
  tok_is tokens (i + 4) (has_type TokenType.NumberLiteral)

/-- The sixth token of the multiply pattern, the test of the nested `if`. -/
def mul_close (tokens : List Token) (i : Nat) : Bool :=
  tok_is tokens (i + 5) (is_a TokenType.Punctuation ")".toList)

/-- The disable test as `parse` makes it: the pattern, and a sixth token behind it. -/
def disable_code (tokens : List Token) (i : Nat) : Bool :=
  decide (i + 5 < tokens.length) && disable_pattern tokens i

/-- The flag `m_enabled` behind the two toggling `if`s at index `i`, from the
flag `b` before them. -/
def toggle (tokens : List Token) (i : Nat) (b : Bool) : Bool :=
  if disable_code tokens i then false
  else if enable_pattern tokens i then true
  else b

/-- The flag `m_enabled` behind the two toggling `if`s at index `i`, for a
parser that started enabled. -/
def code_gate (tokens : List Token) : Nat → Bool
  | 0 => toggle tokens 0 true
  | i + 1 => toggle tokens (i + 1) (code_gate tokens i)

/-- The flag `m_enabled` on entry to the iteration at index `k`. -/
def enabled_before (tokens : List Token) : Nat → Bool
  | 0 => true
  | k + 1 => code_gate tokens k

/-- The gated sum as `parse` accumulates it: the products at the indices below
`k` where the multiply pattern matches and `m_enabled` is set. -/
def gated_code_upto (tokens : List Token) (k : Nat) : Int :=
  (((List.range k).filter (fun i => mul_pattern tokens i && code_gate tokens i)).map
    (mul_value tokens)).sum

/-- Every `NumberLiteral` lexeme is a decimal digit string: a non-empty run of
decimal digits. -/
def digit_lexemes (tokens : List Token) : Prop :=
  ∀ t ∈ tokens, t.type = TokenType.NumberLiteral →
    t.lexeme ≠ [] ∧ ∀ c ∈ t.lexeme, isdigit c = true

instance (tokens : List Token) : Decidable (digit_lexemes tokens) :=
  inferInstanceAs (Decidable (∀ t ∈ tokens, t.type = TokenType.NumberLiteral →
    t.lexeme ≠ [] ∧ ∀ c ∈ t.lexeme, isdigit c = true))

/-- The number a lexeme spells is at most `INT_MAX`. -/
def fits_int (t : Token) : Bool :=
  decide ((digits_value t.lexeme : Int) ≤ INT_MAX)

/-- No conversion overflows: the two numbers of every multiply pattern fit `int`. -/
def operands_fit (tokens : List Token) : Prop :=
  ∀ i, i < tokens.length → mul_pattern tokens i = true →
    tok_is tokens (i + 2) fits_int = true ∧ tok_is tokens (i + 4) fits_int = true

instance (tokens : List Token) : Decidable (operands_fit tokens) :=
  inferInstanceAs (Decidable (∀ i, i < tokens.length → mul_pattern tokens i = true →
    tok_is tokens (i + 2) fits_int = true ∧ tok_is tokens (i + 4) fits_int = true))

/-- The input of `sample_tokens`. -/
def sample_input : List Char :=
  "mul(2,3)don't()xmul(4,5)do()mul(6,7)".toList

/-- The tokens of `mul(2,3)don't()xmul(4,5)do()mul(6,7)`, an input with a
product behind a disable match and one behind a later enable match. -/
def sample_tokens : List Token :=
  match (Tokenizer.tokenize {} sample_input).1 with
  | .ok tokens => tokens
  | .error _ => []

/-! ### The three tests of the loop body of `parse`, one by one -/

namespace Parser

/-- The first `if` of the loop body: the enable test and its assignment. -/
def enable_action (tokens : List Token) (i : Nat) (self : Parser) : Except Fault Parser := do
  let c1 ← enable_cond tokens i
  pure (if c1 then { self with m_enabled := true } else self)

/-- The second `if` of the loop body: the disable test and its assignment. -/
def disable_action (tokens : List Token) (i : Nat) (self : Parser) : Except Fault Parser := do
  let c2 ← disable_cond tokens i
  pure (if c2 then { self with m_enabled := false } else self)

/-- The third `if` of the loop body: the multiply test and its additions. -/
def mul_action (tokens : List Token) (i : Nat) (self : Parser) : Except Fault Parser := do
  let c3 ← mul_cond tokens i
  if c3 then
    let c4 ← close_cond tokens i
    if c4 then
      let t2 ← at_index tokens (i + 2)
      let num1 ← stoi t2.lexeme
      let t4 ← at_index tokens (i + 4)
      let num2 ← stoi t4.lexeme
      let p3 :=
        if self.m_enabled then
          { self with m_amount := wrap_int (self.m_amount + wrap_int (num1 * num2)) }
        else self
      pure { p3 with
        m_uncorrected_amount := wrap_int (p3.m_uncorrected_amount + wrap_int (num1 * num2)) }
    else pure self
  else pure self

/-- The tests of a loop body run one after the other in the order given. -/
def run_actions (actions : List (Parser → Except Fault Parser)) (self : Parser) :
    Except Fault Parser :=
  actions.foldlM (fun p action => action p) self

end Parser

/-- The line and column of the cursor behind a character `c` read at `lc`. -/
def cursor_step (lc : Nat × Nat) (c : Char) : Nat × Nat :=
  if c = Char.ofNat 10 then (lc.1 + 1, 1) else (lc.1, lc.2 + 1)

/-- The line and column of the cursor behind the characters `w` read from `lc`. -/
def cursor_after (lc : Nat × Nat) (w : List Char) : Nat × Nat :=
  w.foldl cursor_step lc

/-- The line and column of a tokenizer. -/
def cursor (t : Tokenizer) : Nat × Nat :=
  (t.m_line, t.m_column)

/-- The number of newline characters of an input. -/
def newline_count (code : List Char) : Nat :=
  code.count (Char.ofNat 10)

/-- The number of characters behind the last newline of an input, all of them
when it has no newline. -/
def chars_after_last_newline (code : List Char) : Nat :=
  (code.reverse.takeWhile (fun c => decide (c ≠ Char.ofNat 10))).length

/-- What the scanner lets a lexeme of each kind be. -/
def lexeme_ok : TokenType → List Char → Prop
  | TokenType.Identifier, lx =>
    (∃ c r, lx = c :: r ∧ (isalpha c = true ∨ c = '_')) ∧
      ∀ c ∈ lx, isalpha c = true ∨ isdigit c = true ∨ c = '_'
  | TokenType.NumberLiteral, lx => lx ≠ [] ∧ ∀ c ∈ lx, isdigit c = true
  | TokenType.Operator, lx => ∃ c, lx = [c] ∧ Tokenizer.is_operator_char c = true
  | TokenType.Punctuation, lx => ∃ c, lx = [c] ∧ Tokenizer.is_punct_char c = true
  | TokenType.Eof, lx => lx = []

/-- A token is well formed for its kind and its lexeme holds no white space. -/
def well_formed (tok : Token) : Prop :=
  lexeme_ok tok.type tok.lexeme ∧
    ∀ c ∈ tok.lexeme, Tokenizer.is_skipped c = false ∧ isspace c = false

/-- The token `tok` spells a piece of `rest` and was stamped by `add_token` when
the cursor, started at `lc` in front of `rest`, stood behind that piece: its line
is the line of the cursor there, its column the column of the cursor there less
the length of the lexeme, in `size_t` arithmetic. -/
def TokenAt (lc : Nat × Nat) (rest : List Char) (tok : Token) : Prop :=
  ∃ front back, rest = front ++ (tok.lexeme ++ back) ∧
    tok.line = (cursor_after lc (front ++ tok.lexeme)).1 ∧
    tok.column = size_sub (cursor_after lc (front ++ tok.lexeme)).2 tok.lexeme.length

/-- What one run of the loop of `scan_tokens` leaves behind, started at state
`t` with `rest` unread, when it returns `out`: the tokens it has appended are
well formed and stamped where their lexemes end, and after a run that succeeds
the cursor has moved over all of `rest`. -/
def ScanPos (t : Tokenizer) (rest : List Char)
    (out : Result Unit TokenizeError × Tokenizer) : Prop :=
  ∃ new, out.2.m_tokens = t.m_tokens ++ new ∧
    (∀ tok ∈ new, tok.type ≠ TokenType.Eof ∧ well_formed tok ∧ TokenAt (cursor t) rest tok) ∧
    (is_err out.1 = false → cursor out.2 = cursor_after (cursor t) rest)

end Day3

/-!
# Day 2 report checks (`src/day2.cpp`)

`std::vector<int>` is a `List Int`; the subtraction and `std::abs` are reduced
to 32 bits with `Day3.wrap_int`. A `for` loop is a fold over its indices, and a
`return` inside the loop ends the fold with `Except.error` of the value returned.
-/

namespace Day2

/-- The function `std::abs` on `int`. -/
def int_abs (x : Int) : Int :=
  Day3.wrap_int (if x < 0 then -x else x)

/-- One iteration of the loop of `is_report_safe` at index `i`, on the flags
`(is_increasing, is_decreasing)`. -/
def is_report_safe_step (levels : List Int) (flags : Bool × Bool) (i : Nat) :
    Except Bool (Bool × Bool) :=
  let diff := Day3.wrap_int (levels.getD i 0 - levels.getD (i - 1) 0)
  if diff = 0 ∨ int_abs diff > 3 then .error false
  else .ok (flags.1 && decide (diff > 0), flags.2 && decide (diff < 0))

def is_report_safe (levels : List Int) : Bool :=
  if levels.length ≤ 1 then true
  else
    match (List.range' 1 (levels.length - 1)).foldlM (is_report_safe_step levels)
      (true, true) with
    | .error r => r
    | .ok flags => flags.1 || flags.2

/-- The vector `modified_levels` that the inner loop of `can_report_be_made_safe`
builds for `remove_idx`. -/
def modified_levels (levels : List Int) (remove_idx : Nat) : List Int :=
  (List.range levels.length).foldl
    (fun m i => if i ≠ remove_idx then m ++ [levels.getD i 0] else m) []

/-- One iteration of the outer loop of `can_report_be_made_safe`. -/
def can_report_be_made_safe_step (levels : List Int) (_ : Unit) (remove_idx : Nat) :
    Except Bool Unit :=
  if is_report_safe (modified_levels levels remove_idx) then .error true else .ok ()

def can_report_be_made_safe (levels : List Int) : Bool :=
  if is_report_safe levels then true
  else
    match (List.range levels.length).foldlM (can_report_be_made_safe_step levels) () with
    | .error r => r
    | .ok _ => false

/-! ### Definitions used to state the properties -/

/-- The difference `levels[i] - levels[i - 1]` in exact integer arithmetic. -/
def diff_at (levels : List Int) (i : Nat) : Int :=
  levels.getD i 0 - levels.getD (i - 1) 0

/-- Every consecutive difference lies between `lo` and `hi`. -/
def diffs_in (levels : List Int) (lo hi : Int) : Prop :=
  ∀ i, i < levels.length → 0 < i → lo ≤ diff_at levels i ∧ diff_at levels i ≤ hi

instance (levels : List Int) (lo hi : Int) : Decidable (diffs_in levels lo hi) :=
  inferInstanceAs (Decidable (∀ i, i < levels.length → 0 < i →
    lo ≤ diff_at levels i ∧ diff_at levels i ≤ hi))

/-- The differences are exact: neither the subtraction nor `std::abs` overflows. -/
def exact_diffs (levels : List Int) : Prop :=
  diffs_in levels (-Day3.INT_MAX) Day3.INT_MAX

instance (levels : List Int) : Decidable (exact_diffs levels) :=
  inferInstanceAs (Decidable (diffs_in levels (-Day3.INT_MAX) Day3.INT_MAX))

end Day2

namespace Day3

/-- The tokens `toks` were scanned from `rest` one after the other by a cursor
that starts at `lc`: in front of each lexeme stands the white space `ws` that was
skipped, and `add_token` stamped the token when the cursor stood behind the
lexeme, with the line of the cursor there and its column less the length of the
lexeme, in `size_t` arithmetic. -/
def StampedRaw (lc : Nat × Nat) : List Char → List Token → Prop
  | _, [] => True
  | rest, tok :: toks =>
    ∃ ws back, rest = ws ++ (tok.lexeme ++ back) ∧
      (∀ c ∈ ws, Tokenizer.is_skipped c = true) ∧
      tok.lexeme ≠ [] ∧ (∀ c ∈ tok.lexeme, Tokenizer.is_skipped c = false) ∧
      tok.type ≠ TokenType.Eof ∧
      tok.line = (cursor_after lc (ws ++ tok.lexeme)).1 ∧
      tok.column = size_sub (cursor_after lc (ws ++ tok.lexeme)).2 tok.lexeme.length ∧
      StampedRaw (cursor_after lc (ws ++ tok.lexeme)) back toks

/-- What one run of the loop of `scan_tokens` appends, started at state `t` with
`rest` unread: tokens scanned from `rest` one after the other. -/
def ScanChain (t : Tokenizer) (rest : List Char)
    (out : Result Unit TokenizeError × Tokenizer) : Prop :=
  ∃ new, out.2.m_tokens = t.m_tokens ++ new ∧ StampedRaw (cursor t) rest new

/-- The tokens `toks` were scanned one after the other from `rest`, the part of
the input behind `front`. Scanning of a token begins behind `front` and the white
space `ws` skipped in front of its lexeme; the lexeme is not longer than the
column of the cursor behind it, the stored column is that column less the length
of the lexeme, and the stored line and column are the 1-based line and column of
the first character of the lexeme, the cursor where scanning of the token began. -/
def Positioned (front : List Char) : List Char → List Token → Prop
  | _, [] => True
  | rest, tok :: toks =>
    ∃ ws back, rest = ws ++ (tok.lexeme ++ back) ∧
      (∀ c ∈ ws, Tokenizer.is_skipped c = true) ∧
      tok.lexeme ≠ [] ∧ (∀ c ∈ tok.lexeme, Tokenizer.is_skipped c = false) ∧
      tok.lexeme.length ≤ (cursor_after (1, 1) (front ++ ws ++ tok.lexeme)).2 ∧
      tok.column = (cursor_after (1, 1) (front ++ ws ++ tok.lexeme)).2 - tok.lexeme.length ∧
      tok.line = (cursor_after (1, 1) (front ++ ws)).1 ∧
      tok.column = (cursor_after (1, 1) (front ++ ws)).2 ∧
      tok.line = 1 + newline_count (front ++ ws) ∧
      tok.column = 1 + chars_after_last_newline (front ++ ws) ∧
      Positioned (front ++ ws ++ tok.lexeme) back toks

/-- The tokens that `add_token` has appended, in order: all tokens of the buffer
but the `Eof` token that `tokenize` appends itself. -/
def emitted (tokens : List Token) : List Token :=
  tokens.filter (fun k => decide (k.type ≠ TokenType.Eof))

/-! ## The cursor and the unread input -/

namespace Tokenizer

theorem is_at_end_of_nil {t : Tokenizer} {code : List Char}
    (h : code.drop t.m_current = []) : t.is_at_end code = true := by
  simpa [is_at_end, List.drop_eq_nil_iff] using h

theorem lt_of_drop_cons {t : Tokenizer} {code : List Char} {c : Char} {r : List Char}
    (h : code.drop t.m_current = c :: r) : t.m_current < code.length := by
  by_contra hlt
  rw [List.drop_eq_nil_of_le (Nat.le_of_not_lt hlt)] at h
  cases h

theorem is_at_end_of_cons {t : Tokenizer} {code : List Char} {c : Char} {r : List Char}
    (h : code.drop t.m_current = c :: r) : t.is_at_end code = false := by
  have := lt_of_drop_cons h
  simp [is_at_end, this]

theorem getD_of_cons {t : Tokenizer} {code : List Char} {c : Char} {r : List Char}
    (h : code.drop t.m_current = c :: r) : code.getD t.m_current (Char.ofNat 0) = c := by
  have hlt := lt_of_drop_cons h
  rw [List.drop_eq_getElem_cons hlt] at h
  rw [List.getD_eq_getElem _ _ hlt]
  exact (List.cons.inj h).1

theorem drop_succ_of_cons {t : Tokenizer} {code : List Char} {c : Char} {r : List Char}
    (h : code.drop t.m_current = c :: r) : code.drop (t.m_current + 1) = r := by
  rw [← List.tail_drop, h]; rfl

theorem peek_of_cons {t : Tokenizer} {code : List Char} {c : Char} {r : List Char}
    (h : code.drop t.m_current = c :: r) : t.peek code = c := by
  simp only [peek, is_at_end_of_cons h, getD_of_cons h, Bool.false_eq_true, if_false]

theorem advance_of_cons {t : Tokenizer} {code : List Char} {c : Char} {r : List Char}
    (h : code.drop t.m_current = c :: r) : (t.advance code).2 = step_char t c := by
  simp only [advance, getD_of_cons h, step_char]
  split <;> rfl

end Tokenizer

@[simp] theorem step_char_current (t : Tokenizer) (c : Char) :
    (step_char t c).m_current = t.m_current + 1 := by
  unfold step_char; split <;> rfl

@[simp] theorem step_char_tokens (t : Tokenizer) (c : Char) :
    (step_char t c).m_tokens = t.m_tokens := by
  unfold step_char; split <;> rfl

@[simp] theorem advance_over_nil (t : Tokenizer) : advance_over t [] = t := rfl

@[simp] theorem advance_over_cons (t : Tokenizer) (c : Char) (w : List Char) :
    advance_over t (c :: w) = advance_over (step_char t c) w := rfl

theorem advance_over_append (t : Tokenizer) (w v : List Char) :
    advance_over t (w ++ v) = advance_over (advance_over t w) v := by
  simp [advance_over, List.foldl_append]

@[simp] theorem advance_over_current (t : Tokenizer) (w : List Char) :
    (advance_over t w).m_current = t.m_current + w.length := by
  induction w generalizing t with
  | nil => rfl
  | cons c w ih => simp [ih]; omega

@[simp] theorem advance_over_tokens (t : Tokenizer) (w : List Char) :
    (advance_over t w).m_tokens = t.m_tokens := by
  induction w generalizing t with
  | nil => rfl
  | cons c w ih => simp [ih]

/-- The unread input after the cursor has moved over a prefix of it. -/
theorem drop_advance_over {t : Tokenizer} {code w r : List Char}
    (h : code.drop t.m_current = w ++ r) :
    code.drop (advance_over t w).m_current = r := by
  rw [advance_over_current, ← List.drop_drop, h, List.drop_left]

theorem take_length_takeWhile (p : Char → Bool) (l : List Char) :
    l.take (l.takeWhile p).length = l.takeWhile p := by
  induction l with
  | nil => rfl
  | cons c l ih =>
    by_cases hc : p c
    · simp [List.takeWhile_cons_of_pos hc, ih]
    · simp [List.takeWhile_cons_of_neg hc]

namespace Tokenizer

/-- The loop of `skip_whitespace` stops exactly behind the leading white space. -/
theorem skip_whitespace_loop_eq (code : List Char) :
    ∀ (fuel : Nat) (t : Tokenizer) (rest : List Char),
      code.drop t.m_current = rest → rest.length ≤ fuel →
      skip_whitespace_loop code fuel t = advance_over t (rest.takeWhile is_skipped)
  | 0, t, rest, _, hlen => by
    have : rest = [] := List.length_eq_zero.mp (Nat.le_zero.mp hlen)
    subst this; rfl
  | fuel + 1, t, [], h, _ => by
    simp [skip_whitespace_loop, is_at_end_of_nil h]
  | fuel + 1, t, c :: r, h, hlen => by
    simp only [skip_whitespace_loop, is_at_end_of_cons h, peek_of_cons h, advance_of_cons h]
    by_cases hc : is_skipped c
    · have h1 : code.drop (step_char t c).m_current = r := by
        rw [step_char_current]; exact drop_succ_of_cons h
      have := skip_whitespace_loop_eq code fuel (step_char t c) r h1
        (Nat.le_of_succ_le_succ hlen)
      simp [hc, this]
    · simp [hc]

/-- The loop of `identifier` stops exactly behind the leading identifier characters. -/
theorem identifier_loop_eq (code : List Char) :
    ∀ (fuel : Nat) (t : Tokenizer) (rest : List Char),
      code.drop t.m_current = rest → rest.length ≤ fuel →
      identifier_loop code fuel t = advance_over t (rest.takeWhile is_ident_char)
  | 0, t, rest, _, hlen => by
    have : rest = [] := List.length_eq_zero.mp (Nat.le_zero.mp hlen)
    subst this; rfl
  | fuel + 1, t, [], h, _ => by
    simp [identifier_loop, is_at_end_of_nil h]
  | fuel + 1, t, c :: r, h, hlen => by
    simp only [identifier_loop, is_at_end_of_cons h, peek_of_cons h, advance_of_cons h]
    by_cases hc : is_ident_char c
    · have h1 : code.drop (step_char t c).m_current = r := by
        rw [step_char_current]; exact drop_succ_of_cons h
      have := identifier_loop_eq code fuel (step_char t c) r h1
        (Nat.le_of_succ_le_succ hlen)
      have hc2 := hc
      simp only [is_ident_char] at hc2
      simp [hc, hc2, this]
    · have hc2 := hc
      simp only [is_ident_char] at hc2
      simp [hc, hc2]

/-- The loop of `number` stops exactly behind the leading digits. -/
theorem number_loop_eq (code : List Char) :
    ∀ (fuel : Nat) (t : Tokenizer) (rest : List Char),
      code.drop t.m_current = rest → rest.length ≤ fuel →
      number_loop code fuel t = advance_over t (rest.takeWhile isdigit)
  | 0, t, rest, _, hlen => by
    have : rest = [] := List.length_eq_zero.mp (Nat.le_zero.mp hlen)
    subst this; rfl
  | fuel + 1, t, [], h, _ => by
    simp [number_loop, is_at_end_of_nil h]
  | fuel + 1, t, c :: r, h, hlen => by
    simp only [number_loop, is_at_end_of_cons h, peek_of_cons h, advance_of_cons h]
    by_cases hc : isdigit c
    · have h1 : code.drop (step_char t c).m_current = r := by
        rw [step_char_current]; exact drop_succ_of_cons h
      have := number_loop_eq code fuel (step_char t c) r h1
        (Nat.le_of_succ_le_succ hlen)
      simp [hc, this]
    · simp [hc]

theorem skip_whitespace_eq {t : Tokenizer} {code rest : List Char}
    (h : code.drop t.m_current = rest) :
    t.skip_whitespace code = advance_over t (rest.takeWhile is_skipped) := by
  apply skip_whitespace_loop_eq code _ t rest h
  rw [← h, List.length_drop]

theorem substr_advance_over {t : Tokenizer} {code rest : List Char} (p : Char → Bool)
    (h : code.drop t.m_current = rest) :
    substr code t.m_current ((advance_over t (rest.takeWhile p)).m_current - t.m_current)
      = rest.takeWhile p := by
  rw [substr, h, advance_over_current, Nat.add_sub_cancel_left, take_length_takeWhile]

theorem identifier_eq {t : Tokenizer} {code rest : List Char}
    (h : code.drop t.m_current = rest) :
    t.identifier code =
      (.ok (), (advance_over t (rest.takeWhile is_ident_char)).add_token
        TokenType.Identifier (rest.takeWhile is_ident_char)) := by
  have hl : identifier_loop code (code.length - t.m_current) t
      = advance_over t (rest.takeWhile is_ident_char) := by
    apply identifier_loop_eq code _ t rest h
    rw [← h, List.length_drop]
  simp only [identifier, hl, substr_advance_over is_ident_char h]

theorem number_eq {t : Tokenizer} {code rest : List Char}
    (h : code.drop t.m_current = rest) :
    t.number code =
      (.ok (), (advance_over t (rest.takeWhile isdigit)).add_token
        TokenType.NumberLiteral (rest.takeWhile isdigit)) := by
  have hl : number_loop code (code.length - t.m_current) t
      = advance_over t (rest.takeWhile isdigit) := by
    apply number_loop_eq code _ t rest h
    rw [← h, List.length_drop]
  simp only [number, hl, substr_advance_over isdigit h]

theorem operator_or_punct_eq {t : Tokenizer} {code : List Char} {c : Char} {r : List Char}
    (h : code.drop t.m_current = c :: r) :
    t.operator_or_punct code =
      if is_operator_char c then
        (.ok (), (step_char t c).add_token TokenType.Operator [c])
      else if is_punct_char c then
        (.ok (), (step_char t c).add_token TokenType.Punctuation [c])
      else
        (.error (TokenizeError.mk (step_char t c).m_line (step_char t c).m_column
          (unrecognized_message [c])), step_char t c) := by
  simp only [operator_or_punct, peek_of_cons h, advance_of_cons h]

/-- One iteration of the loop of `scan_tokens`, in terms of the unread input. -/
theorem scan_tokens_loop_succ {t : Tokenizer} {code rest : List Char} (fuel : Nat)
    (h : code.drop t.m_current = rest) :
    scan_tokens_loop code (fuel + 1) t =
      match rest.dropWhile is_skipped with
      | [] => (.ok (), advance_over t (rest.takeWhile is_skipped))
      | c :: r =>
        if isalpha c || c = '_' then
          scan_tokens_loop code fuel
            ((advance_over (advance_over t (rest.takeWhile is_skipped))
              ((c :: r).takeWhile is_ident_char)).add_token
              TokenType.Identifier ((c :: r).takeWhile is_ident_char))
        else if isdigit c then
          scan_tokens_loop code fuel
            ((advance_over (advance_over t (rest.takeWhile is_skipped))
              ((c :: r).takeWhile isdigit)).add_token
              TokenType.NumberLiteral ((c :: r).takeWhile isdigit))
        else if ispunct c then
          if is_operator_char c then
            scan_tokens_loop code fuel
              ((step_char (advance_over t (rest.takeWhile is_skipped)) c).add_token
                TokenType.Operator [c])
          else if is_punct_char c then
            scan_tokens_loop code fuel
              ((step_char (advance_over t (rest.takeWhile is_skipped)) c).add_token
                TokenType.Punctuation [c])
          else
            (.error (TokenizeError.mk
              (step_char (advance_over t (rest.takeWhile is_skipped)) c).m_line
              (step_char (advance_over t (rest.takeWhile is_skipped)) c).m_column
              (unrecognized_message [c])),
              step_char (advance_over t (rest.takeWhile is_skipped)) c)
        else
          (.error (TokenizeError.mk
            (advance_over t (rest.takeWhile is_skipped)).m_line
            (advance_over t (rest.takeWhile is_skipped)).m_column
            (unexpected_message c)),
            advance_over t (rest.takeWhile is_skipped)) := by
  cases hrest : rest with
  | nil =>
    subst hrest
    rw [scan_tokens_loop]
    simp [is_at_end_of_nil h]
  | cons c0 r0 =>
    rw [← hrest]
    have hne : t.is_at_end code = false := is_at_end_of_cons (h.trans hrest)
    have hsplit : code.drop t.m_current
        = rest.takeWhile is_skipped ++ rest.dropWhile is_skipped := by
      rw [List.takeWhile_append_dropWhile]; exact h
    have h1 := drop_advance_over hsplit
    rw [scan_tokens_loop]
    simp only [hne, skip_whitespace_eq h]
    cases hd : rest.dropWhile is_skipped with
    | nil =>
      rw [hd] at h1
      simp [is_at_end_of_nil h1]
    | cons c r =>
      rw [hd] at h1
      simp only [is_at_end_of_cons h1, peek_of_cons h1, identifier_eq h1, number_eq h1,
        operator_or_punct_eq h1]
      simp only [is_err]
      by_cases ha : (isalpha c || decide (c = '_')) = true
      · simp [ha]
      · by_cases hdg : isdigit c = true
        · simp [ha, hdg]
        · by_cases hp : ispunct c = true
          · by_cases ho : is_operator_char c = true
            · simp [ha, hdg, hp, ho]
            · by_cases hpc : is_punct_char c = true
              · simp [ha, hdg, hp, ho, hpc]
              · simp [ha, hdg, hp, ho, hpc]
          · simp [ha, hdg, hp]

end Tokenizer

/-! ## Character classes -/

theorem is_operator_char_mem {c : Char} (h : Tokenizer.is_operator_char c = true) :
    c ∈ ['+', '-', '*', '/', '%', '&', '|', '^', '~', '@', ':', '$', '?', '#', '>', '<', '!'] := by
  simpa [Tokenizer.is_operator_char, or_assoc] using h

theorem is_punct_char_mem {c : Char} (h : Tokenizer.is_punct_char c = true) :
    c ∈ [';', ',', Char.ofNat 39, '.', '(', ')', Char.ofNat 123, Char.ofNat 125, '[', ']',
      Char.ofNat 34] := by
  simpa [Tokenizer.is_punct_char, or_assoc] using h

theorem is_skipped_mem {c : Char} (h : Tokenizer.is_skipped c = true) :
    c ∈ [' ', Char.ofNat 13, Char.ofNat 9, Char.ofNat 10] := by
  simpa [Tokenizer.is_skipped, or_assoc] using h

theorem is_operator_char_facts {c : Char} (h : Tokenizer.is_operator_char c = true) :
    ispunct c = true ∧ Tokenizer.is_skipped c = false := by
  have key : ∀ d ∈ ['+', '-', '*', '/', '%', '&', '|', '^', '~', '@', ':', '$', '?', '#',
      '>', '<', '!'], ispunct d = true ∧ Tokenizer.is_skipped d = false := by decide
  exact key c (is_operator_char_mem h)

theorem is_punct_char_facts {c : Char} (h : Tokenizer.is_punct_char c = true) :
    ispunct c = true ∧ Tokenizer.is_skipped c = false := by
  have key : ∀ d ∈ [';', ',', Char.ofNat 39, '.', '(', ')', Char.ofNat 123, Char.ofNat 125,
      '[', ']', Char.ofNat 34], ispunct d = true ∧ Tokenizer.is_skipped d = false := by decide
  exact key c (is_punct_char_mem h)

theorem is_skipped_facts {c : Char} (h : Tokenizer.is_skipped c = true) :
    isalpha c = false ∧ isdigit c = false ∧ ispunct c = false ∧ c ≠ '_' := by
  have key : ∀ d ∈ [' ', Char.ofNat 13, Char.ofNat 9, Char.ofNat 10],
      isalpha d = false ∧ isdigit d = false ∧ ispunct d = false ∧ d ≠ '_' := by decide
  exact key c (is_skipped_mem h)

theorem is_ident_char_not_skipped {c : Char} (h : is_ident_char c = true) :
    Tokenizer.is_skipped c = false := by
  cases hs : Tokenizer.is_skipped c with
  | false => rfl
  | true =>
    obtain ⟨h1, h2, _, h4⟩ := is_skipped_facts hs
    simp [is_ident_char, isalnum, h1, h2, h4] at h

theorem isdigit_not_skipped {c : Char} (h : isdigit c = true) :
    Tokenizer.is_skipped c = false := by
  cases hs : Tokenizer.is_skipped c with
  | false => rfl
  | true =>
    obtain ⟨_, h2, _, _⟩ := is_skipped_facts hs
    rw [h2] at h; cases h

theorem is_ident_char_scannable {c : Char} (h : is_ident_char c = true) :
    scannable c = true := by
  simp only [is_ident_char, isalnum, Bool.or_eq_true, decide_eq_true_eq] at h
  simp only [scannable, Bool.or_eq_true, decide_eq_true_eq]
  tauto

theorem dropWhile_head_false (p : Char → Bool) :
    ∀ (l : List Char) (c : Char) (r : List Char), l.dropWhile p = c :: r → p c = false
  | [], _, _, h => by cases h
  | a :: l, c, r, h => by
    by_cases ha : p a = true
    · rw [List.dropWhile_cons_of_pos ha] at h
      exact dropWhile_head_false p l c r h
    · rw [List.dropWhile_cons_of_neg ha] at h
      cases h
      simpa using ha

theorem mem_takeWhile_true (p : Char → Bool) :
    ∀ (l : List Char) (c : Char), c ∈ l.takeWhile p → p c = true
  | [], _, h => by cases h
  | a :: l, c, h => by
    by_cases ha : p a = true
    · rw [List.takeWhile_cons_of_pos ha] at h
      rcases List.mem_cons.mp h with rfl | h
      · exact ha
      · exact mem_takeWhile_true p l c h
    · rw [List.takeWhile_cons_of_neg ha] at h
      cases h

theorem filter_not_skipped_of_skipped {w : List Char}
    (h : ∀ c ∈ w, Tokenizer.is_skipped c = true) :
    w.filter (fun c => !Tokenizer.is_skipped c) = [] := by
  rw [List.filter_eq_nil_iff]
  intro c hc
  simp [h c hc]

theorem filter_not_skipped_of_not_skipped {w : List Char}
    (h : ∀ c ∈ w, Tokenizer.is_skipped c = false) :
    w.filter (fun c => !Tokenizer.is_skipped c) = w := by
  rw [List.filter_eq_self]
  intro c hc
  simp [h c hc]

/-! ## The loop of `scan_tokens` -/

@[simp] theorem add_token_current (t : Tokenizer) (ty : TokenType) (lx : List Char) :
    (t.add_token ty lx).m_current = t.m_current := rfl

@[simp] theorem add_token_tokens (t : Tokenizer) (ty : TokenType) (lx : List Char) :
    (t.add_token ty lx).m_tokens
      = t.m_tokens ++ [Token.mk ty lx t.m_line (size_sub t.m_column lx.length)] := rfl

/-- A run that starts behind one more token inherits the description of the
run that starts before it. -/
theorem ScanSpec_of_token {code : List Char} {t t1 : Tokenizer}
    {rest : List Char} (ws w rest2 : List Char) {ty : TokenType}
    {out : Result Unit TokenizeError × Tokenizer}
    (hrest : rest = ws ++ (w ++ rest2))
    (hws : ∀ c ∈ ws, Tokenizer.is_skipped c = true)
    (hw : ∀ c ∈ w, Tokenizer.is_skipped c = false ∧ scannable c = true)
    (hne : w ≠ [])
    (ht1 : t1.m_tokens = t.m_tokens)
    (hty : ty ≠ TokenType.Eof)
    (hout : ScanSpec code (t1.add_token ty w) rest2 out) : ScanSpec code t rest out := by
  have htok : (t1.add_token ty w).m_tokens = t.m_tokens
      ++ [Token.mk ty w t1.m_line (size_sub t1.m_column w.length)] := by
    rw [add_token_tokens, ht1]
  have hlex : (Token.mk ty w t1.m_line (size_sub t1.m_column w.length)).lexeme = w := rfl
  rcases hout with ⟨t3, new, ho, htk, hnty, hlx, hsc, hlen, _⟩ | ⟨e, t3, ho, c, hc, hcs⟩
  · refine Or.inl ⟨t3, Token.mk ty w t1.m_line (size_sub t1.m_column w.length) :: new,
      ho, ?_, ?_, ?_, ?_, hlen, ?_⟩
    · rw [htk, htok]; simp
    · intro k hk
      rcases List.mem_cons.mp hk with rfl | hk
      · exact hty
      · exact hnty k hk
    · have h1 : lexemes (Token.mk ty w t1.m_line (size_sub t1.m_column w.length) :: new)
          = w ++ lexemes new := by
        simp [lexemes]
      rw [h1, hlx, hrest, List.filter_append, List.filter_append,
        filter_not_skipped_of_skipped hws,
        filter_not_skipped_of_not_skipped (fun c hc => (hw c hc).1)]
      rfl
    · intro c hc
      rw [hrest] at hc
      rcases List.mem_append.mp hc with hc | hc
      · simp [scannable, hws c hc]
      · rcases List.mem_append.mp hc with hc | hc
        · exact (hw c hc).2
        · exact hsc c hc
    · intro hall
      exfalso
      obtain ⟨c, hc⟩ := List.exists_mem_of_ne_nil w hne
      have h1 := (hw c hc).1
      have h2 := hall c (by rw [hrest]; simp [hc])
      rw [h1] at h2; cases h2
  · refine Or.inr ⟨e, t3, ho, c, ?_, hcs⟩
    rw [hrest]; simp [hc]

namespace Tokenizer

/-- The loop of `scan_tokens`, run with at least as much fuel as there are
unread characters, meets `ScanSpec`. -/
theorem scan_tokens_loop_spec (code : List Char) :
    ∀ (fuel : Nat) (t : Tokenizer) (rest : List Char),
      code.drop t.m_current = rest → rest.length ≤ fuel →
      ScanSpec code t rest (scan_tokens_loop code fuel t) := by
  intro fuel
  induction fuel with
  | zero =>
    intro t rest h hlen
    have hnil : rest = [] := List.length_eq_zero.mp (Nat.le_zero.mp hlen)
    subst hnil
    refine Or.inl ⟨t, [], rfl, by simp, by simp, by simp [lexemes], by simp, ?_, by simp⟩
    exact List.drop_eq_nil_iff.mp h
  | succ fuel ih =>
    intro t rest h hlen
    rw [scan_tokens_loop_succ fuel h]
    have hsplit : rest = rest.takeWhile is_skipped ++ rest.dropWhile is_skipped :=
      (List.takeWhile_append_dropWhile is_skipped rest).symm
    have hws : ∀ c ∈ rest.takeWhile is_skipped, is_skipped c = true :=
      fun c hc => mem_takeWhile_true is_skipped rest c hc
    cases hd : rest.dropWhile is_skipped with
    | nil =>
      rw [hd, List.append_nil] at hsplit
      have hall : ∀ c ∈ rest, is_skipped c = true := by
        intro c hc; rw [hsplit] at hc; exact hws c hc
      have hdrop : code.drop (advance_over t (rest.takeWhile is_skipped)).m_current = [] :=
        drop_advance_over (by rw [List.append_nil, ← hsplit]; exact h)
      refine Or.inl ⟨advance_over t (rest.takeWhile is_skipped), [], rfl, by simp, by simp,
        ?_, ?_, List.drop_eq_nil_iff.mp hdrop, by simp⟩
      · rw [filter_not_skipped_of_skipped hall]; rfl
      · intro c hc; simp [scannable, hall c hc]
    | cons c r =>
      rw [hd] at hsplit
      have hc : is_skipped c = false := dropWhile_head_false is_skipped rest c r hd
      have hdrop1 : code.drop (advance_over t (rest.takeWhile is_skipped)).m_current
          = c :: r := drop_advance_over (by rw [← hsplit]; exact h)
      have hlen1 : (c :: r).length ≤ fuel + 1 := by
        have := congrArg List.length hsplit
        rw [List.length_append] at this
        omega
      -- the state and the unread input behind a token that spells `w`
      have token : ∀ (p : Char → Bool) (ty : TokenType), p c = true →
          (∀ d, p d = true → is_skipped d = false ∧ scannable d = true) →
          ty ≠ TokenType.Eof →
          ScanSpec code t rest (scan_tokens_loop code fuel
            ((advance_over (advance_over t (rest.takeWhile is_skipped))
              ((c :: r).takeWhile p)).add_token ty ((c :: r).takeWhile p))) := by
        intro p ty hpc hp hty
        have hsplit2 : c :: r = (c :: r).takeWhile p ++ (c :: r).dropWhile p :=
          (List.takeWhile_append_dropWhile p (c :: r)).symm
        have hne : (c :: r).takeWhile p ≠ [] := by
          rw [List.takeWhile_cons_of_pos hpc]; exact List.cons_ne_nil _ _
        have hdrop2 : code.drop ((advance_over (advance_over t (rest.takeWhile is_skipped))
            ((c :: r).takeWhile p)).add_token ty ((c :: r).takeWhile p)).m_current
            = (c :: r).dropWhile p := by
          rw [add_token_current]
          exact drop_advance_over (by rw [← hsplit2]; exact hdrop1)
        have hlen2 : ((c :: r).dropWhile p).length ≤ fuel := by
          have h1 := congrArg List.length hsplit2
          rw [List.length_append] at h1
          have h2 : 0 < ((c :: r).takeWhile p).length := List.length_pos.mpr hne
          omega
        refine ScanSpec_of_token (rest.takeWhile is_skipped)
          ((c :: r).takeWhile p) ((c :: r).dropWhile p)
          ?_ hws ?_ hne ?_ hty (ih _ _ hdrop2 hlen2)
        · rw [← hsplit2]; exact hsplit
        · intro d hd; exact hp d (mem_takeWhile_true p (c :: r) d hd)
        · simp
      -- a token of one character
      have single : ∀ (ty : TokenType), scannable c = true → ty ≠ TokenType.Eof →
          ScanSpec code t rest (scan_tokens_loop code fuel
            ((step_char (advance_over t (rest.takeWhile is_skipped)) c).add_token ty [c])) := by
        intro ty hsc hty
        have hdrop2 : code.drop ((step_char (advance_over t (rest.takeWhile is_skipped))
            c).add_token ty [c]).m_current = r := by
          rw [add_token_current]
          exact drop_advance_over (w := [c]) hdrop1
        have hlen2 : r.length ≤ fuel := by
          rw [List.length_cons] at hlen1; omega
        refine ScanSpec_of_token (rest.takeWhile is_skipped) [c] r
          hsplit hws ?_ (List.cons_ne_nil _ _) ?_ hty (ih _ _ hdrop2 hlen2)
        · intro d hd
          rw [List.mem_singleton.mp hd]; exact ⟨hc, hsc⟩
        · simp
      have hmem : c ∈ rest := by rw [hsplit]; simp
      simp only
      by_cases ha : (isalpha c || decide (c = '_')) = true
      · rw [if_pos ha]
        refine token is_ident_char TokenType.Identifier ?_ ?_ (by decide)
        · simp only [Bool.or_eq_true, decide_eq_true_eq] at ha
          simp only [is_ident_char, isalnum, Bool.or_eq_true, decide_eq_true_eq]
          tauto
        · intro d hd; exact ⟨is_ident_char_not_skipped hd, is_ident_char_scannable hd⟩
      · rw [if_neg ha]
        by_cases hdg : isdigit c = true
        · rw [if_pos hdg]
          refine token isdigit TokenType.NumberLiteral hdg ?_ (by decide)
          intro d hd
          exact ⟨isdigit_not_skipped hd, by simp [scannable, hd]⟩
        · rw [if_neg hdg]
          by_cases hp : ispunct c = true
          · rw [if_pos hp]
            by_cases ho : is_operator_char c = true
            · rw [if_pos ho]
              exact single TokenType.Operator (by simp [scannable, ho]) (by decide)
            · rw [if_neg ho]
              by_cases hpc : is_punct_char c = true
              · rw [if_pos hpc]
                exact single TokenType.Punctuation (by simp [scannable, hpc]) (by decide)
              · rw [if_neg hpc]
                refine Or.inr ⟨_, _, rfl, c, hmem, ?_⟩
                simp only [Bool.or_eq_true, not_or] at ha
                simp [scannable, hc, ha, hdg, ho, hpc]
          · rw [if_neg hp]
            refine Or.inr ⟨_, _, rfl, c, hmem, ?_⟩
            have ho : is_operator_char c = false := by
              cases ho : is_operator_char c with
              | false => rfl
              | true => exact absurd (is_operator_char_facts ho).1 hp
            have hpc : is_punct_char c = false := by
              cases hpc : is_punct_char c with
              | false => rfl
              | true => exact absurd (is_punct_char_facts hpc).1 hp
            simp only [Bool.or_eq_true, not_or] at ha
            simp [scannable, hc, ha, hdg, ho, hpc]

end Tokenizer

/-- The loop of `scan_tokens` does not run out of fuel: when it returns `Ok`
the cursor is at the end of the input. -/
theorem scan_tokens_stops_at_end (t t1 : Tokenizer) (code : List Char)
    (h : t.scan_tokens code = (.ok (), t1)) : t1.is_at_end code = true := by
  have key := Tokenizer.scan_tokens_loop_spec code (code.length - t.m_current) t
    (code.drop t.m_current) rfl (by rw [List.length_drop])
  rw [Tokenizer.scan_tokens] at h
  rw [h] at key
  rcases key with ⟨t2, new, ho, _, _, _, _, hlen, _⟩ | ⟨e, t2, ho, _⟩
  · cases ho
    simpa [Tokenizer.is_at_end] using hlen
  · cases ho

/-! ## The method `tokenize` -/

/-- The two outcomes of `tokenize`: the tokens scanned followed by the `Eof`
token, or an error caused by a character that no branch accepts. -/
theorem tokenize_spec (t : Tokenizer) (code : List Char) :
    (∃ new line column,
      (t.tokenize code).1 = .ok (new ++ [Token.mk TokenType.Eof [] line column]) ∧
      (∀ k ∈ new, k.type ≠ TokenType.Eof) ∧
      lexemes new = code.filter (fun c => !Tokenizer.is_skipped c) ∧
      (∀ c ∈ code, scannable c = true) ∧
      ((∀ c ∈ code, Tokenizer.is_skipped c = true) → new = [])) ∨
    (∃ e, (t.tokenize code).1 = .error e ∧ ∃ c ∈ code, scannable c = false) := by
  have key := Tokenizer.scan_tokens_loop_spec code code.length
    { m_line := 1, m_column := 1, m_current := 0, m_tokens := [] } code rfl (Nat.le_refl _)
  have hrun : t.tokenize code =
      match Tokenizer.scan_tokens_loop code code.length
        { m_line := 1, m_column := 1, m_current := 0, m_tokens := [] } with
      | (.error e, s1) => (.error e, s1)
      | (.ok _, s1) =>
        (.ok (s1.m_tokens ++ [Token.mk TokenType.Eof [] s1.m_line s1.m_column]),
          { s1 with
            m_tokens := s1.m_tokens ++ [Token.mk TokenType.Eof [] s1.m_line s1.m_column] }) :=
    rfl
  rcases key with ⟨t1, new, ho, htk, hnty, hlx, hsc, _, hall⟩ | ⟨e, t1, ho, hc⟩
  · refine Or.inl ⟨new, t1.m_line, t1.m_column, ?_, hnty, hlx, hsc, hall⟩
    rw [hrun, ho]
    simp only [htk, List.nil_append]
  · refine Or.inr ⟨e, ?_, hc⟩
    rw [hrun, ho]

/-! ## The conditions of `parse` -/

theorem all_of_cons_ok {b r : Bool} {rest : List (Except Fault Bool)}
    (h : all_of rest = .ok r) : all_of (.ok b :: rest) = .ok (b && r) := by
  cases b <;> simp [all_of, h]

theorem get?_of_lt {tokens : List Token} {k : Nat} (h : k < tokens.length) :
    ∃ t, tokens[k]? = some t :=
  ⟨tokens[k], List.getElem?_eq_getElem h⟩

theorem tok_is_of_le {tokens : List Token} {k : Nat} (p : Token → Bool)
    (h : tokens.length ≤ k) : tok_is tokens k p = false := by
  simp [tok_is, List.getElem?_eq_none h]

theorem type_is_of_get? {tokens : List Token} {k : Nat} {t : Token} (ty : TokenType)
    (h : tokens[k]? = some t) : type_is tokens k ty = .ok (decide (t.type = ty)) := by
  simp only [type_is, at_index, h]; rfl

theorem lexeme_is_of_get? {tokens : List Token} {k : Nat} {t : Token} (lx : List Char)
    (h : tokens[k]? = some t) : lexeme_is tokens k lx = .ok (decide (t.lexeme = lx)) := by
  simp only [lexeme_is, at_index, h]; rfl

theorem lexeme_ends_with_of_get? {tokens : List Token} {k : Nat} {t : Token} (lx : List Char)
    (h : tokens[k]? = some t) :
    lexeme_ends_with tokens k lx = .ok (ends_with t.lexeme lx) := by
  simp only [lexeme_ends_with, at_index, h]; rfl

namespace Parser

/-- The first condition never faults and is the enable pattern. -/
theorem enable_cond_eq (tokens : List Token) (i : Nat) :
    enable_cond tokens i = .ok (enable_pattern tokens i) := by
  by_cases hlt : i + 2 < tokens.length
  · obtain ⟨t0, h0⟩ := get?_of_lt (show i < tokens.length by omega)
    obtain ⟨t1, h1⟩ := get?_of_lt (show i + 1 < tokens.length by omega)
    obtain ⟨t2, h2⟩ := get?_of_lt hlt
    rw [enable_cond, type_is_of_get? _ h0, lexeme_is_of_get? _ h0, type_is_of_get? _ h1,
      lexeme_is_of_get? _ h1, type_is_of_get? _ h2, lexeme_is_of_get? _ h2]
    rw [all_of_cons_ok (all_of_cons_ok (all_of_cons_ok (all_of_cons_ok (all_of_cons_ok
      (all_of_cons_ok (all_of_cons_ok (rfl : all_of [] = .ok true)))))))]
    simp [enable_pattern, tok_is, h0, h1, h2, is_a, hlt, Bool.and_assoc]
  · have hf : enable_pattern tokens i = false := by
      simp [enable_pattern, tok_is_of_le _ (Nat.le_of_not_lt hlt)]
    rw [hf, enable_cond]
    simp [all_of, hlt]

/-- The second condition never faults: it is the disable pattern with a sixth
token behind it. -/
theorem disable_cond_eq (tokens : List Token) (i : Nat) :
    disable_cond tokens i = .ok (disable_code tokens i) := by
  by_cases hlt : i + 5 < tokens.length
  · obtain ⟨t0, h0⟩ := get?_of_lt (show i < tokens.length by omega)
    obtain ⟨t1, h1⟩ := get?_of_lt (show i + 1 < tokens.length by omega)
    obtain ⟨t2, h2⟩ := get?_of_lt (show i + 2 < tokens.length by omega)
    obtain ⟨t3, h3⟩ := get?_of_lt (show i + 3 < tokens.length by omega)
    obtain ⟨t4, h4⟩ := get?_of_lt (show i + 4 < tokens.length by omega)
    rw [disable_cond, type_is_of_get? _ h0, type_is_of_get? _ h1, lexeme_is_of_get? _ h1,
      type_is_of_get? _ h2, lexeme_is_of_get? _ h2, type_is_of_get? _ h3,
      lexeme_is_of_get? _ h3, type_is_of_get? _ h4, lexeme_is_of_get? _ h4]
    rw [all_of_cons_ok (all_of_cons_ok (all_of_cons_ok (all_of_cons_ok (all_of_cons_ok
      (all_of_cons_ok (all_of_cons_ok (all_of_cons_ok (all_of_cons_ok (all_of_cons_ok
      (rfl : all_of [] = .ok true))))))))))]
    simp [disable_code, disable_pattern, tok_is, h0, h1, h2, h3, h4, is_a, has_type, hlt,
      Bool.and_assoc]
  · rw [disable_cond]
    simp [all_of, hlt, disable_code]

/-- The third condition never faults and is the first five tokens of the
multiply pattern. -/
theorem mul_cond_eq (tokens : List Token) (i : Nat) :
    mul_cond tokens i = .ok (mul_head tokens i) := by
  by_cases hlt : i + 4 < tokens.length
  · obtain ⟨t0, h0⟩ := get?_of_lt (show i < tokens.length by omega)
    obtain ⟨t1, h1⟩ := get?_of_lt (show i + 1 < tokens.length by omega)
    obtain ⟨t2, h2⟩ := get?_of_lt (show i + 2 < tokens.length by omega)
    obtain ⟨t3, h3⟩ := get?_of_lt (show i + 3 < tokens.length by omega)
    obtain ⟨t4, h4⟩ := get?_of_lt hlt
    rw [mul_cond, type_is_of_get? _ h0, lexeme_ends_with_of_get? _ h0, type_is_of_get? _ h1,
      lexeme_is_of_get? _ h1, type_is_of_get? _ h2, type_is_of_get? _ h3,
      lexeme_is_of_get? _ h3, type_is_of_get? _ h4]
    rw [all_of_cons_ok (all_of_cons_ok (all_of_cons_ok (all_of_cons_ok (all_of_cons_ok
      (all_of_cons_ok (all_of_cons_ok (all_of_cons_ok (all_of_cons_ok
      (rfl : all_of [] = .ok true)))))))))]
    simp [mul_head, tok_is, h0, h1, h2, h3, h4, is_a, has_type, is_mul_identifier, hlt,
      Bool.and_assoc]
  · have hf : mul_head tokens i = false := by
      simp [mul_head, tok_is_of_le _ (Nat.le_of_not_lt hlt)]
    rw [hf, mul_cond]
    simp [all_of, hlt]

/-- The nested condition never faults and is the sixth token of the multiply
pattern. -/
theorem close_cond_eq (tokens : List Token) (i : Nat) :
    close_cond tokens i = .ok (mul_close tokens i) := by
  by_cases hlt : i + 5 < tokens.length
  · obtain ⟨t5, h5⟩ := get?_of_lt hlt
    rw [close_cond, type_is_of_get? _ h5, lexeme_is_of_get? _ h5]
    rw [all_of_cons_ok (all_of_cons_ok (all_of_cons_ok (rfl : all_of [] = .ok true)))]
    simp [mul_close, tok_is, h5, is_a, hlt]
  · have hf : mul_close tokens i = false := by
      simp [mul_close, tok_is_of_le _ (Nat.le_of_not_lt hlt)]
    rw [hf, close_cond]
    simp [all_of, hlt]

end Parser

theorem mul_pattern_eq (tokens : List Token) (i : Nat) :
    mul_pattern tokens i = (mul_head tokens i && mul_close tokens i) := rfl

/-! ## `std::stoi` on a run of digits -/

theorem isdigit_facts {c : Char} (h : isdigit c = true) :
    isspace c = false ∧ c ≠ '-' ∧ c ≠ '+' := by
  refine ⟨?_, ?_, ?_⟩
  · simp only [isdigit, Bool.and_eq_true, decide_eq_true_eq] at h
    simp only [isspace, Bool.or_eq_false_iff, Bool.and_eq_false_iff, decide_eq_false_iff_not]
    omega
  · rintro rfl; revert h; decide
  · rintro rfl; revert h; decide

theorem stoi_digits {l : List Char} (hne : l ≠ []) (hd : ∀ c ∈ l, isdigit c = true)
    (hmax : (digits_value l : Int) ≤ INT_MAX) : stoi l = .ok (digits_value l : Int) := by
  cases l with
  | nil => exact absurd rfl hne
  | cons c r =>
    obtain ⟨hsp, hminus, hplus⟩ := isdigit_facts (hd c (List.mem_cons_self c r))
    have h1 : (c :: r).dropWhile isspace = c :: r := by
      rw [List.dropWhile_cons_of_neg (by simp [hsp])]
    have h2 : (c :: r).takeWhile isdigit = c :: r :=
      List.takeWhile_eq_self_iff.mpr (fun x hx => hd x hx)
    have h3 : ¬ ((digits_value (c :: r) : Int) < INT_MIN) := by
      have : (0 : Int) ≤ (digits_value (c :: r) : Int) := Int.ofNat_nonneg _
      simp only [INT_MIN]; omega
    have h4 : ¬ (INT_MAX < (digits_value (c :: r) : Int)) := by omega
    simp only [stoi, h1, List.head?_cons, Option.some.injEq, hminus, hplus, or_self,
      if_false, decide_False, h2, List.isEmpty_cons, Bool.false_eq_true, h3, h4]

/-! ## One iteration of `parse` -/

theorem tok_is_true {tokens : List Token} {k : Nat} {p : Token → Bool}
    (h : tok_is tokens k p = true) : ∃ t, tokens[k]? = some t ∧ p t = true := by
  unfold tok_is at h
  cases hk : tokens[k]? with
  | none => rw [hk] at h; cases h
  | some t => rw [hk] at h; exact ⟨t, rfl, h⟩

theorem at_index_of_get? {tokens : List Token} {k : Nat} {t : Token}
    (h : tokens[k]? = some t) : at_index tokens k = .ok t := by
  simp only [at_index, h]

namespace Parser

/-- One iteration of the loop of `parse` on tokens whose numbers `std::stoi`
converts: the flag is toggled, then a multiply pattern adds its product. -/
theorem parse_step_eq {tokens : List Token} (hdig : digit_lexemes tokens)
    (hfit : operands_fit tokens) (p : Parser) (i : Nat) :
    parse_step tokens p i = .ok
      { m_enabled := toggle tokens i p.m_enabled,
        m_amount :=
          if mul_pattern tokens i && toggle tokens i p.m_enabled then
            wrap_int (p.m_amount + wrap_int (mul_value tokens i))
          else p.m_amount,
        m_uncorrected_amount :=
          if mul_pattern tokens i then
            wrap_int (p.m_uncorrected_amount + wrap_int (mul_value tokens i))
          else p.m_uncorrected_amount } := by
  rw [parse_step, enable_cond_eq, disable_cond_eq, mul_cond_eq, close_cond_eq, mul_pattern_eq]
  simp only [bind, Except.bind, pure, Except.pure]
  cases hpre : mul_head tokens i with
  | false =>
    cases p
    cases he : enable_pattern tokens i <;> cases hd : disable_code tokens i <;>
      simp [toggle, he, hd]
  | true =>
    cases hcl : mul_close tokens i with
    | false =>
      cases p
      cases he : enable_pattern tokens i <;> cases hd : disable_code tokens i <;>
        simp [toggle, he, hd]
    | true =>
      have hmul : mul_pattern tokens i = true := by rw [mul_pattern_eq, hpre, hcl]; rfl
      simp only [mul_head, Bool.and_eq_true] at hpre
      obtain ⟨⟨⟨⟨_, _⟩, hn2⟩, _⟩, hn4⟩ := hpre
      obtain ⟨t2, h2, hty2⟩ := tok_is_true hn2
      obtain ⟨t4, h4, hty4⟩ := tok_is_true hn4
      have hlt : i < tokens.length := by
        by_contra hge
        rw [List.getElem?_eq_none (by omega)] at h2
        cases h2
      obtain ⟨hf2, hf4⟩ := hfit i hlt hmul
      have hmax2 : (digits_value t2.lexeme : Int) ≤ INT_MAX := by
        simpa [tok_is, h2, fits_int] using hf2
      have hmax4 : (digits_value t4.lexeme : Int) ≤ INT_MAX := by
        simpa [tok_is, h4, fits_int] using hf4
      obtain ⟨hne2, hd2⟩ := hdig t2 (List.getElem?_mem h2) (by simpa [has_type] using hty2)
      obtain ⟨hne4, hd4⟩ := hdig t4 (List.getElem?_mem h4) (by simpa [has_type] using hty4)
      have hv : mul_value tokens i
          = (digits_value t2.lexeme : Int) * (digits_value t4.lexeme : Int) := by
        simp only [mul_value, h2, h4]
      simp only [at_index_of_get? h2, at_index_of_get? h4, stoi_digits hne2 hd2 hmax2,
        stoi_digits hne4 hd4 hmax4, hv]
      cases p
      cases he : enable_pattern tokens i <;> cases hd : disable_code tokens i <;>
        cases hb : (‹Bool› : Bool) <;> simp [toggle, he, hd]

end Parser

/-! ## The loop of `parse` -/

theorem wrap_int_add (a b : Int) : wrap_int (wrap_int a + wrap_int b) = wrap_int (a + b) := by
  simp only [wrap_int]; omega

theorem wrap_int_of_range {x : Int} (h0 : 0 ≤ x) (h1 : x ≤ INT_MAX) : wrap_int x = x := by
  simp only [wrap_int, INT_MAX] at *; omega

theorem sum_filter_range_succ (q : Nat → Bool) (f : Nat → Int) (k : Nat) :
    (((List.range (k + 1)).filter q).map f).sum
      = (((List.range k).filter q).map f).sum + (if q k then f k else 0) := by
  rw [List.range_succ, List.filter_append, List.map_append, List.sum_append]
  cases hq : q k <;> simp [List.filter_cons, hq]

theorem enabled_before_succ (tokens : List Token) (k : Nat) :
    toggle tokens k (enabled_before tokens k) = enabled_before tokens (k + 1) := by
  cases k <;> rfl

namespace Parser

/-- The state of the parser after the iterations at the indices below `k`. -/
theorem parse_upto {tokens : List Token} (hdig : digit_lexemes tokens)
    (hfit : operands_fit tokens) (k : Nat) :
    (List.range k).foldlM (parse_step tokens) ({} : Parser) = .ok
      { m_enabled := enabled_before tokens k,
        m_amount := wrap_int (gated_code_upto tokens k),
        m_uncorrected_amount := wrap_int (ungated_upto tokens k) } := by
  induction k with
  | zero => rfl
  | succ k ih =>
    rw [List.range_succ, List.foldlM_append, ih]
    simp only [bind, Except.bind, List.foldlM_cons, List.foldlM_nil, pure, Except.pure]
    rw [parse_step_eq hdig hfit]
    simp only [enabled_before_succ]
    have hg : gated_code_upto tokens (k + 1) = gated_code_upto tokens k
        + (if (mul_pattern tokens k && code_gate tokens k) = true then mul_value tokens k
            else 0) :=
      sum_filter_range_succ _ _ k
    have hu : ungated_upto tokens (k + 1) = ungated_upto tokens k
        + (if mul_pattern tokens k = true then mul_value tokens k else 0) :=
      sum_filter_range_succ _ _ k
    have hcg : enabled_before tokens (k + 1) = code_gate tokens k := rfl
    rw [hg, hu, hcg]
    congr 2
    · split
      · rw [wrap_int_add]
      · rw [Int.add_zero]
    · split
      · rw [wrap_int_add]
      · rw [Int.add_zero]

end Parser

/-! ## The gate of the specification and the flag of the code -/

/-- The enable and the disable pattern never match at the same index: they
ask for different lexemes at the second token. -/
theorem enable_disable_exclusive {tokens : List Token} {j : Nat}
    (he : enable_pattern tokens j = true) : disable_pattern tokens j = false := by
  simp only [enable_pattern, Bool.and_eq_true] at he
  obtain ⟨⟨_, h1⟩, _⟩ := he
  obtain ⟨t1, ht1, hp1⟩ := tok_is_true h1
  simp only [is_a, Bool.and_eq_true, decide_eq_true_eq] at hp1
  have hne : t1.lexeme ≠ [Char.ofNat 39] := by rw [hp1.2]; decide
  simp [disable_pattern, tok_is, ht1, is_a, hne]

theorem mul_pattern_lt {tokens : List Token} {i : Nat} (h : mul_pattern tokens i = true) :
    i + 5 < tokens.length := by
  simp only [mul_pattern, Bool.and_eq_true] at h
  obtain ⟨t5, h5, _⟩ := tok_is_true h.2
  by_contra hlt
  rw [List.getElem?_eq_none (Nat.le_of_not_lt hlt)] at h5
  cases h5

theorem gate_open_zero (tokens : List Token) :
    gate_open tokens 0 =
      if enable_pattern tokens 0 || disable_pattern tokens 0 then enable_pattern tokens 0
      else true := by
  simp only [gate_open, last_toggle]
  by_cases ht : (enable_pattern tokens 0 || disable_pattern tokens 0) = true
  · simp only [if_pos ht]
  · simp only [if_neg ht]

theorem gate_open_succ (tokens : List Token) (i : Nat) :
    gate_open tokens (i + 1) =
      if enable_pattern tokens (i + 1) || disable_pattern tokens (i + 1) then
        enable_pattern tokens (i + 1)
      else gate_open tokens i := by
  simp only [gate_open, last_toggle]
  by_cases ht : (enable_pattern tokens (i + 1) || disable_pattern tokens (i + 1)) = true
  · simp only [if_pos ht]
  · simp only [if_neg ht]

theorem toggle_eq_of_lt {tokens : List Token} {j : Nat} (h : j + 5 < tokens.length)
    (b : Bool) :
    toggle tokens j b =
      if enable_pattern tokens j || disable_pattern tokens j then enable_pattern tokens j
      else b := by
  have hd : disable_code tokens j = disable_pattern tokens j := by
    simp [disable_code, h]
  rw [toggle, hd]
  cases he : enable_pattern tokens j with
  | true => simp [enable_disable_exclusive he]
  | false => cases disable_pattern tokens j <;> simp

/-- As long as a sixth token follows, the flag of the code is the gate of the
specification. -/
theorem code_gate_eq_gate_open {tokens : List Token} :
    ∀ (j : Nat), j + 5 < tokens.length → code_gate tokens j = gate_open tokens j
  | 0, h => by
    rw [gate_open_zero, code_gate, toggle_eq_of_lt h]
  | j + 1, h => by
    rw [gate_open_succ, code_gate, toggle_eq_of_lt h,
      code_gate_eq_gate_open j (by omega)]

theorem gated_code_upto_eq (tokens : List Token) (k : Nat) :
    gated_code_upto tokens k = gated_upto tokens k := by
  unfold gated_code_upto gated_upto
  congr 2
  apply List.filter_congr
  intro i _
  cases hm : mul_pattern tokens i with
  | false => rfl
  | true => simp [code_gate_eq_gate_open i (mul_pattern_lt hm)]

theorem mul_value_nonneg (tokens : List Token) (i : Nat) : 0 ≤ mul_value tokens i := by
  unfold mul_value
  split
  · exact Int.mul_nonneg (Int.ofNat_nonneg _) (Int.ofNat_nonneg _)
  · exact Int.le_refl 0

theorem sum_filter_and_bounds (f : Nat → Int) (hf : ∀ i, 0 ≤ f i) (q g : Nat → Bool) :
    ∀ (l : List Nat),
      0 ≤ ((l.filter (fun i => q i && g i)).map f).sum ∧
      ((l.filter (fun i => q i && g i)).map f).sum ≤ ((l.filter q).map f).sum
  | [] => by simp
  | a :: l => by
    obtain ⟨h0, h1⟩ := sum_filter_and_bounds f hf q g l
    have ha := hf a
    cases hq : q a <;> cases hg : g a <;>
      simp [List.filter_cons, hq, hg] <;> omega

theorem gated_spec_bounds (tokens : List Token) :
    0 ≤ gated_spec tokens ∧ gated_spec tokens ≤ ungated_spec tokens :=
  sum_filter_and_bounds (mul_value tokens) (mul_value_nonneg tokens) _ _ _

/-- The most recent toggle is what its name says. -/
theorem last_toggle_eq_some_iff (tokens : List Token) (i j : Nat) :
    last_toggle tokens i = some j ↔
      j ≤ i ∧ (enable_pattern tokens j || disable_pattern tokens j) = true ∧
      ∀ k, j < k → k ≤ i → (enable_pattern tokens k || disable_pattern tokens k) = false := by
  induction i with
  | zero =>
    simp only [last_toggle]
    constructor
    · intro h
      split at h
      · cases h
        exact ⟨Nat.le_refl 0, by assumption, fun k hk hk0 => by omega⟩
      · cases h
    · rintro ⟨hj, ht, _⟩
      have : j = 0 := by omega
      subst this
      rw [if_pos ht]
  | succ i ih =>
    simp only [last_toggle]
    by_cases ht : (enable_pattern tokens (i + 1) || disable_pattern tokens (i + 1)) = true
    · rw [if_pos ht]
      constructor
      · intro h
        cases h
        exact ⟨Nat.le_refl _, ht, fun k hk hk0 => by omega⟩
      · rintro ⟨hj, _, hall⟩
        by_cases hji : j = i + 1
        · rw [hji]
        · have := hall (i + 1) (by omega) (Nat.le_refl _)
          rw [ht] at this; cases this
    · rw [if_neg ht, ih]
      constructor
      · rintro ⟨hj, htj, hall⟩
        refine ⟨by omega, htj, fun k hk hki => ?_⟩
        by_cases hk1 : k = i + 1
        · subst hk1; simpa using ht
        · exact hall k hk (by omega)
      · rintro ⟨hj, htj, hall⟩
        have hne : j ≠ i + 1 := by
          rintro rfl; exact ht htj
        exact ⟨by omega, htj, fun k hk hki => hall k hk (by omega)⟩

/-- The function `ends_with` tests for a suffix. -/
theorem ends_with_iff (value ending : List Char) :
    ends_with value ending = true ↔ ∃ front, value = front ++ ending := by
  unfold ends_with
  constructor
  · intro h
    split at h
    · cases h
    · have h1 : ending.reverse <+: value.reverse := by
        rw [List.prefix_iff_eq_take, List.length_reverse]
        exact (of_decide_eq_true h).symm
      obtain ⟨front, hfront⟩ := List.reverse_prefix.mp h1
      exact ⟨front, hfront.symm⟩
  · rintro ⟨front, rfl⟩
    have hlen : ¬ (ending.length > (front ++ ending).length) := by
      rw [List.length_append]; omega
    rw [if_neg hlen]
    apply decide_eq_true
    rw [List.reverse_append, List.take_left' (List.length_reverse ending)]

/-! ## The properties of the specification -/

/-- C1: the built-in input of `day3` tokenizes without an error, and parsing
its tokens with a fresh `Parser` leaves the ungated sum (`uncorrected_amount`)
and the gated sum (`amount`) both at 161; `day3` without an argument logs these
two amounts and returns 0. -/
theorem default_input_sums :
    (∃ tokens p, (Tokenizer.tokenize {} default_input).1 = .ok tokens ∧
      Parser.parse {} tokens = .ok p ∧
      p.uncorrected_amount = 161 ∧ p.amount = 161) ∧
    day3 none = .ok (0, some (161, 161)) :=
  ⟨⟨_, _, rfl, rfl, rfl, rfl⟩, rfl⟩

/-- C2: tokenizing `do()mul(2,3)don't()mul(4,5)` and parsing the tokens with a
fresh `Parser` gives the ungated sum 26 and the gated sum 6, and the parser
ends disabled: the second product is behind the disable pattern. -/
theorem gated_differs_from_ungated :
    ∃ tokens p, (Tokenizer.tokenize {} "do()mul(2,3)don't()mul(4,5)".toList).1 = .ok tokens ∧
      Parser.parse {} tokens = .ok p ∧
      p.uncorrected_amount = 26 ∧ p.amount = 6 ∧ p.m_enabled = false :=
  ⟨_, _, rfl, rfl, rfl, rfl, rfl⟩

/-- C3: on tokens whose `NumberLiteral` lexemes are decimal digit strings, with
no `int` overflow (the two numbers of every multiply pattern and the ungated
total fit `int`), `parse` on a fresh `Parser` returns, its ungated sum is the
sum of the products over the indices where the six-token multiply pattern
matches, and its gated sum is the same sum over those of these indices at which
the most recent enable or disable match at an index `j ≤ i` is an enable match,
or there is none. -/
theorem parse_sums (tokens : List Token) (hdig : digit_lexemes tokens)
    (hfit : operands_fit tokens) (hsum : ungated_spec tokens ≤ INT_MAX) :
    ∃ p, Parser.parse {} tokens = .ok p ∧
      p.uncorrected_amount = ungated_spec tokens ∧ p.amount = gated_spec tokens := by
  obtain ⟨h0, h1⟩ := gated_spec_bounds tokens
  refine ⟨_, Parser.parse_upto hdig hfit tokens.length, ?_, ?_⟩
  · exact wrap_int_of_range (Int.le_trans h0 h1) hsum
  · show wrap_int (gated_code_upto tokens tokens.length) = gated_spec tokens
    rw [gated_code_upto_eq]
    exact wrap_int_of_range h0 (Int.le_trans h1 hsum)

/-- Witness of C3: the tokens of `mul(2,3)don't()xmul(4,5)do()mul(6,7)`, where
the sums of the specification are 68 and 48. -/
theorem parse_sums_witness :
    digit_lexemes sample_tokens ∧ operands_fit sample_tokens ∧
      ungated_spec sample_tokens ≤ INT_MAX ∧
      ungated_spec sample_tokens = 68 ∧ gated_spec sample_tokens = 48 ∧
      ∃ p, Parser.parse {} sample_tokens = .ok p ∧
        p.uncorrected_amount = ungated_spec sample_tokens ∧
        p.amount = gated_spec sample_tokens :=
  ⟨by decide, by decide, by decide, by decide, by decide,
    parse_sums sample_tokens (by decide) (by decide) (by decide)⟩

/-- C4: when `tokenize` returns a token sequence, the lexemes of its tokens other
than the end-of-input token, concatenated in order, are the input without its
white space characters (space, carriage return, tab, newline). -/
theorem tokenize_lexemes (t : Tokenizer) (code : List Char) (tokens : List Token)
    (h : (t.tokenize code).1 = .ok tokens) :
    lexemes (tokens.filter (fun k => decide (k.type ≠ TokenType.Eof)))
      = code.filter (fun c => !Tokenizer.is_skipped c) := by
  rcases tokenize_spec t code with ⟨new, line, column, ho, hnty, hlx, _, _⟩ | ⟨e, he, _⟩
  · rw [ho] at h
    cases h
    have hf : new.filter (fun k => decide (k.type ≠ TokenType.Eof)) = new := by
      rw [List.filter_eq_self]
      intro k hk; simpa using hnty k hk
    rw [List.filter_append, hf]
    simpa [lexemes] using hlx
  · rw [he] at h; cases h

/-- Witness of C4: an input with white space between and around its tokens. -/
theorem tokenize_lexemes_witness :
    (Tokenizer.tokenize {} " mul (2,\t3)\r\n do ".toList).1
        = .ok [⟨TokenType.Identifier, "mul".toList, 1, 2⟩, ⟨TokenType.Punctuation, "(".toList, 1, 6⟩,
            ⟨TokenType.NumberLiteral, "2".toList, 1, 7⟩, ⟨TokenType.Punctuation, ",".toList, 1, 8⟩,
            ⟨TokenType.NumberLiteral, "3".toList, 1, 10⟩, ⟨TokenType.Punctuation, ")".toList, 1, 11⟩,
            ⟨TokenType.Identifier, "do".toList, 2, 2⟩, ⟨TokenType.Eof, [], 2, 5⟩] ∧
      lexemes (([⟨TokenType.Identifier, "mul".toList, 1, 2⟩, ⟨TokenType.Punctuation, "(".toList, 1, 6⟩,
            ⟨TokenType.NumberLiteral, "2".toList, 1, 7⟩, ⟨TokenType.Punctuation, ",".toList, 1, 8⟩,
            ⟨TokenType.NumberLiteral, "3".toList, 1, 10⟩, ⟨TokenType.Punctuation, ")".toList, 1, 11⟩,
            ⟨TokenType.Identifier, "do".toList, 2, 2⟩, ⟨TokenType.Eof, [], 2, 5⟩] : List Token).filter
          (fun k => decide (k.type ≠ TokenType.Eof)))
        = " mul (2,\t3)\r\n do ".toList.filter (fun c => !Tokenizer.is_skipped c) :=
  ⟨rfl, tokenize_lexemes {} " mul (2,\t3)\r\n do ".toList _ rfl⟩

/-- C5: when `tokenize` succeeds the sequence is not empty, its last token is of
kind `Eof` with an empty lexeme, and no token before it is of kind `Eof`. -/
theorem tokenize_eof_last (t : Tokenizer) (code : List Char) (tokens : List Token)
    (h : (t.tokenize code).1 = .ok tokens) :
    tokens ≠ [] ∧ ∃ front last, tokens = front ++ [last] ∧
      last.type = TokenType.Eof ∧ last.lexeme = [] ∧
      ∀ k ∈ front, k.type ≠ TokenType.Eof := by
  rcases tokenize_spec t code with ⟨new, line, column, ho, hnty, _, _, _⟩ | ⟨e, he, _⟩
  · rw [ho] at h
    cases h
    exact ⟨by simp, new, _, rfl, rfl, rfl, hnty⟩
  · rw [he] at h; cases h

/-- Witness of C5: the input `do()`. -/
theorem tokenize_eof_last_witness :
    (Tokenizer.tokenize {} "do()".toList).1
        = .ok [⟨TokenType.Identifier, "do".toList, 1, 1⟩, ⟨TokenType.Punctuation, "(".toList, 1, 3⟩,
            ⟨TokenType.Punctuation, ")".toList, 1, 4⟩, ⟨TokenType.Eof, [], 1, 5⟩] ∧
      ([⟨TokenType.Identifier, "do".toList, 1, 1⟩, ⟨TokenType.Punctuation, "(".toList, 1, 3⟩,
            ⟨TokenType.Punctuation, ")".toList, 1, 4⟩, ⟨TokenType.Eof, [], 1, 5⟩] : List Token) ≠ [] ∧
      ∃ front last,
        ([⟨TokenType.Identifier, "do".toList, 1, 1⟩, ⟨TokenType.Punctuation, "(".toList, 1, 3⟩,
            ⟨TokenType.Punctuation, ")".toList, 1, 4⟩, ⟨TokenType.Eof, [], 1, 5⟩] : List Token)
          = front ++ [last] ∧
        last.type = TokenType.Eof ∧ last.lexeme = [] ∧ ∀ k ∈ front, k.type ≠ TokenType.Eof :=
  ⟨rfl, tokenize_eof_last {} "do()".toList _ rfl⟩

/-- C6: `tokenize` returns an error exactly when the input holds a character that
is not white space, not a letter, not the underscore, not a digit, not an operator
character and not a punctuation character; a result that is an error is not a
token sequence. -/
theorem tokenize_error_iff (t : Tokenizer) (code : List Char) :
    ((∃ e, (t.tokenize code).1 = .error e) ↔ ∃ c ∈ code, scannable c = false) ∧
    ((∃ e, (t.tokenize code).1 = .error e) ↔ ¬ ∃ tokens, (t.tokenize code).1 = .ok tokens) := by
  constructor
  · constructor
    · rintro ⟨e, he⟩
      rcases tokenize_spec t code with ⟨new, line, column, ho, _⟩ | ⟨_, _, hc⟩
      · rw [ho] at he; cases he
      · exact hc
    · rintro ⟨c, hc, hcs⟩
      rcases tokenize_spec t code with ⟨new, line, column, _, _, _, hsc, _⟩ | ⟨e, he, _⟩
      · rw [hsc c hc] at hcs; cases hcs
      · exact ⟨e, he⟩
  · cases (t.tokenize code).1 with
    | error e => simp
    | ok tokens => simp

/-- C7: on the input `=` the error of `tokenize` carries column 2, the cursor
behind the character, while the character stands at line 1, column 1; on the
input `a` followed by a NUL character the error carries the position of that
character, column 2. -/
theorem unrecognized_symbol_position :
    (Tokenizer.tokenize {} "=".toList).1
        = .error ⟨1, 2, Tokenizer.unrecognized_message "=".toList⟩ ∧
      (Tokenizer.tokenize {} ['a', Char.ofNat 0]).1
        = .error ⟨1, 2, Tokenizer.unexpected_message (Char.ofNat 0)⟩ :=
  ⟨rfl, rfl⟩

/-- C8, as the claim states it: the tokens of `ab`, newline, `cd` are not
`Identifier` `ab` on line 1, `Identifier` `cd` on line 2 with column 3, and the
end-of-input token. -/
theorem position_accounting_counterexample :
    ¬ ∃ c1 l3 c3, (Tokenizer.tokenize {} "ab\ncd".toList).1
        = .ok [⟨TokenType.Identifier, "ab".toList, 1, c1⟩,
            ⟨TokenType.Identifier, "cd".toList, 2, 3⟩, ⟨TokenType.Eof, [], l3, c3⟩] := by
  rintro ⟨c1, l3, c3, h⟩
  have hrun : (Tokenizer.tokenize {} "ab\ncd".toList).1
      = .ok [⟨TokenType.Identifier, "ab".toList, 1, 1⟩,
          ⟨TokenType.Identifier, "cd".toList, 2, 1⟩, ⟨TokenType.Eof, [], 2, 3⟩] := rfl
  rw [hrun] at h
  injection h with h
  injection h with _ h
  injection h with h _
  injection h with _ _ _ h
  cases h

/-- C8, amended: the tokens of `ab`, newline, `cd` are `Identifier` `ab` at line 1,
column 1, `Identifier` `cd` at line 2, column 1 (the cursor column 3 less the
length of the lexeme), and the end-of-input token at line 2, column 3. -/
theorem position_accounting :
    (Tokenizer.tokenize {} "ab\ncd".toList).1
      = .ok [⟨TokenType.Identifier, "ab".toList, 1, 1⟩,
          ⟨TokenType.Identifier, "cd".toList, 2, 1⟩, ⟨TokenType.Eof, [], 2, 3⟩] :=
  rfl

/-- C9: whatever state a `Tokenizer` is in (cursor, line, column, leftover
tokens), `tokenize` returns what a fresh `Tokenizer` returns on the same input;
so does a second call on the object a first call has left behind. -/
theorem tokenize_ignores_prior_state (t : Tokenizer) (code other : List Char) :
    (t.tokenize code).1 = (Tokenizer.tokenize {} code).1 ∧
      ((t.tokenize other).2.tokenize code).1 = (Tokenizer.tokenize {} code).1 :=
  ⟨rfl, rfl⟩

/-- C10: on an input of white space characters only, the empty input included,
`tokenize` succeeds with exactly one token, the end-of-input token; on the empty
input that token is at line 1, column 1. -/
theorem tokenize_whitespace_only (t : Tokenizer) (code : List Char)
    (h : ∀ c ∈ code, Tokenizer.is_skipped c = true) :
    (∃ line column, (t.tokenize code).1 = .ok [⟨TokenType.Eof, [], line, column⟩]) ∧
      (t.tokenize []).1 = .ok [⟨TokenType.Eof, [], 1, 1⟩] := by
  refine ⟨?_, rfl⟩
  rcases tokenize_spec t code with ⟨new, line, column, ho, _, _, _, hall⟩ | ⟨e, _, c, hc, hcs⟩
  · refine ⟨line, column, ?_⟩
    rw [ho, hall h]; rfl
  · have := h c hc
    simp [scannable, this] at hcs

/-- Witness of C10: a space, a tab, a carriage return and two newlines. -/
theorem tokenize_whitespace_only_witness :
    (∀ c ∈ " \t\r\n\n".toList, Tokenizer.is_skipped c = true) ∧
      (Tokenizer.tokenize {} " \t\r\n\n".toList).1 = .ok [⟨TokenType.Eof, [], 3, 1⟩] ∧
      ((∃ line column, (Tokenizer.tokenize {} " \t\r\n\n".toList).1
          = .ok [⟨TokenType.Eof, [], line, column⟩]) ∧
        (Tokenizer.tokenize {} []).1 = .ok [⟨TokenType.Eof, [], 1, 1⟩]) :=
  ⟨by decide, rfl, tokenize_whitespace_only {} " \t\r\n\n".toList (by decide)⟩

/-! ## Element accesses of `parse` -/

theorem stoi_no_index_fault (l : List Char) : stoi l ≠ .error Fault.index_out_of_range := by
  unfold stoi
  intro h
  dsimp only at h
  split_ifs at h <;> cases h

namespace Parser

/-- No iteration of the loop of `parse` reads outside the token vector. -/
theorem parse_step_in_bounds (tokens : List Token) (p : Parser) (i : Nat) :
    parse_step tokens p i ≠ .error Fault.index_out_of_range := by
  rw [parse_step, enable_cond_eq, disable_cond_eq, mul_cond_eq, close_cond_eq]
  simp only [bind, Except.bind, pure, Except.pure]
  cases hpre : mul_head tokens i with
  | false => simp
  | true =>
    cases hcl : mul_close tokens i with
    | false => simp
    | true =>
      simp only [mul_head, Bool.and_eq_true] at hpre
      obtain ⟨⟨⟨⟨_, _⟩, hn2⟩, _⟩, hn4⟩ := hpre
      obtain ⟨t2, h2, _⟩ := tok_is_true hn2
      obtain ⟨t4, h4, _⟩ := tok_is_true hn4
      simp only [at_index_of_get? h2, at_index_of_get? h4]
      have hs2 := stoi_no_index_fault t2.lexeme
      have hs4 := stoi_no_index_fault t4.lexeme
      cases h2v : stoi t2.lexeme with
      | error f => rw [h2v] at hs2; simpa using hs2
      | ok n1 =>
        cases h4v : stoi t4.lexeme with
        | error f => rw [h4v] at hs4; simpa using hs4
        | ok n2 => simp

theorem foldlM_in_bounds (tokens : List Token) :
    ∀ (l : List Nat) (p : Parser),
      l.foldlM (parse_step tokens) p ≠ .error Fault.index_out_of_range
  | [], p => by simp [pure, Except.pure]
  | i :: l, p => by
    rw [List.foldlM_cons]
    cases hstep : parse_step tokens p i with
    | error f =>
      have := parse_step_in_bounds tokens p i
      rw [hstep] at this
      simpa [bind, Except.bind] using this
    | ok q =>
      simpa [bind, Except.bind] using foldlM_in_bounds tokens l q

end Parser

/-! ## The three tests of `parse` exclude each other -/

theorem enable_excludes_mul {tokens : List Token} {i : Nat}
    (he : enable_pattern tokens i = true) : mul_head tokens i = false := by
  simp only [enable_pattern, Bool.and_eq_true] at he
  obtain ⟨_, h2⟩ := he
  obtain ⟨t2, ht2, hp2⟩ := tok_is_true h2
  simp only [is_a, Bool.and_eq_true, decide_eq_true_eq] at hp2
  simp [mul_head, tok_is, ht2, has_type, hp2.1]

theorem disable_excludes_mul {tokens : List Token} {i : Nat}
    (hd : disable_pattern tokens i = true) : mul_head tokens i = false := by
  simp only [disable_pattern, Bool.and_eq_true] at hd
  obtain ⟨⟨⟨⟨_, h1⟩, _⟩, _⟩, _⟩ := hd
  obtain ⟨t1, ht1, hp1⟩ := tok_is_true h1
  simp only [is_a, Bool.and_eq_true, decide_eq_true_eq] at hp1
  cases hm : mul_head tokens i with
  | false => rfl
  | true =>
    simp only [mul_head, Bool.and_eq_true] at hm
    obtain ⟨⟨⟨⟨_, hm1⟩, _⟩, _⟩, _⟩ := hm
    obtain ⟨u1, hu1, hq1⟩ := tok_is_true hm1
    simp only [is_a, Bool.and_eq_true, decide_eq_true_eq] at hq1
    rw [ht1] at hu1
    cases hu1
    have hbad : ([Char.ofNat 39] : List Char) = "(".toList := by rw [← hp1.2, hq1.2]
    revert hbad
    decide

theorem disable_code_pattern {tokens : List Token} {i : Nat}
    (hd : disable_code tokens i = true) : disable_pattern tokens i = true := by
  simp only [disable_code, Bool.and_eq_true] at hd
  exact hd.2

/-- At most one of the three tests of the loop body holds at an index. -/
theorem tests_exclusive (tokens : List Token) (i : Nat) :
    (enable_pattern tokens i && disable_code tokens i) = false ∧
    (enable_pattern tokens i && mul_head tokens i) = false ∧
    (disable_code tokens i && mul_head tokens i) = false := by
  refine ⟨?_, ?_, ?_⟩
  · cases he : enable_pattern tokens i with
    | false => rfl
    | true =>
      cases hd : disable_code tokens i with
      | false => rfl
      | true =>
        have := enable_disable_exclusive he
        rw [disable_code_pattern hd] at this
        cases this
  · cases he : enable_pattern tokens i with
    | false => rfl
    | true => simp [enable_excludes_mul he]
  · cases hd : disable_code tokens i with
    | false => rfl
    | true => simp [disable_excludes_mul (disable_code_pattern hd)]

namespace Parser

theorem enable_action_eq (tokens : List Token) (i : Nat) (p : Parser) :
    enable_action tokens i p
      = .ok (if enable_pattern tokens i then { p with m_enabled := true } else p) := by
  rw [enable_action, enable_cond_eq]; rfl

theorem disable_action_eq (tokens : List Token) (i : Nat) (p : Parser) :
    disable_action tokens i p
      = .ok (if disable_code tokens i then { p with m_enabled := false } else p) := by
  rw [disable_action, disable_cond_eq]; rfl

theorem mul_action_of_false {tokens : List Token} {i : Nat} (h : mul_head tokens i = false)
    (p : Parser) : mul_action tokens i p = .ok p := by
  rw [mul_action, mul_cond_eq, h]; rfl

/-- The loop body is its three tests in the order of the source. -/
theorem parse_step_eq_actions (tokens : List Token) (p : Parser) (i : Nat) :
    parse_step tokens p i
      = run_actions [enable_action tokens i, disable_action tokens i, mul_action tokens i] p := by
  have hstep : parse_step tokens p i = mul_action tokens i
      (if disable_code tokens i then
        { (if enable_pattern tokens i then { p with m_enabled := true } else p) with
          m_enabled := false }
       else (if enable_pattern tokens i then { p with m_enabled := true } else p)) := by
    rw [parse_step, enable_cond_eq, disable_cond_eq]; rfl
  rw [hstep]
  simp only [run_actions, List.foldlM_cons, List.foldlM_nil, enable_action_eq,
    disable_action_eq, bind, Except.bind, pure, Except.pure]
  cases mul_action tokens i _ <;> rfl

/-- Whatever the order in which the three tests are run, the loop body gives
the same result. -/
theorem run_actions_any_order (tokens : List Token) (p : Parser) (i : Nat) :
    run_actions [enable_action tokens i, mul_action tokens i, disable_action tokens i] p
        = parse_step tokens p i ∧
    run_actions [disable_action tokens i, enable_action tokens i, mul_action tokens i] p
        = parse_step tokens p i ∧
    run_actions [disable_action tokens i, mul_action tokens i, enable_action tokens i] p
        = parse_step tokens p i ∧
    run_actions [mul_action tokens i, enable_action tokens i, disable_action tokens i] p
        = parse_step tokens p i ∧
    run_actions [mul_action tokens i, disable_action tokens i, enable_action tokens i] p
        = parse_step tokens p i := by
  obtain ⟨hed, hem, hdm⟩ := tests_exclusive tokens i
  rw [parse_step_eq_actions]
  cases hm : mul_head tokens i with
  | false =>
    simp only [run_actions, List.foldlM_cons, List.foldlM_nil, enable_action_eq,
      disable_action_eq, mul_action_of_false hm, bind, Except.bind, pure, Except.pure]
    cases he : enable_pattern tokens i <;> cases hd : disable_code tokens i <;>
      simp_all
  | true =>
    have he : enable_pattern tokens i = false := by
      cases he : enable_pattern tokens i with
      | false => rfl
      | true => rw [he, hm] at hem; cases hem
    have hd : disable_code tokens i = false := by
      cases hd : disable_code tokens i with
      | false => rfl
      | true => rw [hd, hm] at hdm; cases hdm
    simp only [run_actions, List.foldlM_cons, List.foldlM_nil, enable_action_eq,
      disable_action_eq, he, hd, bind, Except.bind, pure, Except.pure]
    cases hres : mul_action tokens i p <;> simp [hres]

end Parser

/-! ## Line and column -/

theorem cursor_step_char (t : Tokenizer) (c : Char) :
    cursor (step_char t c) = cursor_step (cursor t) c := by
  unfold step_char cursor_step cursor
  split <;> rfl

theorem cursor_advance_over (t : Tokenizer) (w : List Char) :
    cursor (advance_over t w) = cursor_after (cursor t) w := by
  induction w generalizing t with
  | nil => rfl
  | cons c w ih =>
    rw [advance_over_cons, ih, cursor_step_char]; rfl

theorem cursor_add_token (t : Tokenizer) (ty : TokenType) (lx : List Char) :
    cursor (t.add_token ty lx) = cursor t := rfl

theorem cursor_after_append (lc : Nat × Nat) (w v : List Char) :
    cursor_after lc (w ++ v) = cursor_after (cursor_after lc w) v := by
  simp [cursor_after, List.foldl_append]

/-- A piece without a newline leaves the line and moves the column by its length. -/
theorem cursor_after_of_no_newline (lc : Nat × Nat) (w : List Char)
    (h : ∀ c ∈ w, c ≠ Char.ofNat 10) :
    cursor_after lc w = (lc.1, lc.2 + w.length) := by
  induction w generalizing lc with
  | nil => rfl
  | cons c w ih =>
    have hc : c ≠ Char.ofNat 10 := h c (List.mem_cons_self c w)
    have hw : ∀ d ∈ w, d ≠ Char.ofNat 10 := fun d hd => h d (List.mem_cons_of_mem c hd)
    have hstep : cursor_step lc c = (lc.1, lc.2 + 1) := by
      simp [cursor_step, hc]
    show cursor_after (cursor_step lc c) w = _
    rw [ih _ hw, hstep, List.length_cons]
    simp only [Prod.mk.injEq, true_and]
    omega

/-- The cursor behind an input: every newline adds a line, and the column counts
the characters behind the last newline. -/
theorem cursor_after_eq (lc : Nat × Nat) (w : List Char) :
    cursor_after lc w =
      (lc.1 + newline_count w,
        (if Char.ofNat 10 ∈ w then 1 else lc.2) + chars_after_last_newline w) := by
  induction w using List.reverseRecOn with
  | nil => simp [cursor_after, newline_count, chars_after_last_newline]
  | append_singleton w c ih =>
    rw [cursor_after_append, ih]
    by_cases hc : c = Char.ofNat 10
    · subst hc
      simp [cursor_after, cursor_step, newline_count, chars_after_last_newline]
      omega
    · have hc2 : ¬ (Char.ofNat 10 = c) := fun h => hc h.symm
      simp [cursor_after, cursor_step, newline_count, chars_after_last_newline, hc, hc2,
        List.count_singleton]
      omega

theorem size_sub_add (c n : Nat) (h : c + n < SIZE_MOD) : size_sub (c + n) n = c := by
  simp only [size_sub, SIZE_MOD] at *
  omega

/-! ## Tokens are well formed and stamped where they end -/

theorem isspace_facts {c : Char} (h : isspace c = true) :
    isalpha c = false ∧ isdigit c = false ∧ c ≠ '_' := by
  refine ⟨?_, ?_, ?_⟩
  · simp only [isspace, Bool.or_eq_true, Bool.and_eq_true, decide_eq_true_eq] at h
    simp only [isalpha, Bool.or_eq_false_iff, Bool.and_eq_false_iff, decide_eq_false_iff_not]
    omega
  · simp only [isspace, Bool.or_eq_true, Bool.and_eq_true, decide_eq_true_eq] at h
    simp only [isdigit, Bool.and_eq_false_iff, decide_eq_false_iff_not]
    omega
  · rintro rfl; revert h; decide

theorem is_ident_char_not_space {c : Char} (h : is_ident_char c = true) :
    isspace c = false := by
  cases hs : isspace c with
  | false => rfl
  | true =>
    obtain ⟨h1, h2, h3⟩ := isspace_facts hs
    simp [is_ident_char, isalnum, h1, h2, h3] at h

theorem is_operator_char_not_space {c : Char} (h : Tokenizer.is_operator_char c = true) :
    isspace c = false := by
  have key : ∀ d ∈ ['+', '-', '*', '/', '%', '&', '|', '^', '~', '@', ':', '$', '?', '#',
      '>', '<', '!'], isspace d = false := by decide
  exact key c (is_operator_char_mem h)

theorem is_punct_char_not_space {c : Char} (h : Tokenizer.is_punct_char c = true) :
    isspace c = false := by
  have key : ∀ d ∈ [';', ',', Char.ofNat 39, '.', '(', ')', Char.ofNat 123, Char.ofNat 125,
      '[', ']', Char.ofNat 34], isspace d = false := by decide
  exact key c (is_punct_char_mem h)

theorem not_newline_of_not_skipped {c : Char} (h : Tokenizer.is_skipped c = false) :
    c ≠ Char.ofNat 10 := by
  rintro rfl; revert h; decide

/-- A run that starts behind one more token inherits what the run that starts
before it leaves behind. -/
theorem ScanPos_of_token {t t1 : Tokenizer} {rest : List Char} (ws w rest2 : List Char)
    {ty : TokenType} {out : Result Unit TokenizeError × Tokenizer}
    (hrest : rest = ws ++ (w ++ rest2))
    (hcur : cursor t1 = cursor_after (cursor t) (ws ++ w))
    (ht1 : t1.m_tokens = t.m_tokens)
    (hty : ty ≠ TokenType.Eof)
    (hwf : well_formed (Token.mk ty w t1.m_line (size_sub t1.m_column w.length)))
    (hout : ScanPos (t1.add_token ty w) rest2 out) : ScanPos t rest out := by
  obtain ⟨new, htk, hall, hend⟩ := hout
  have hline : t1.m_line = (cursor_after (cursor t) (ws ++ w)).1 := by rw [← hcur]; rfl
  have hcol : t1.m_column = (cursor_after (cursor t) (ws ++ w)).2 := by rw [← hcur]; rfl
  refine ⟨Token.mk ty w t1.m_line (size_sub t1.m_column w.length) :: new, ?_, ?_, ?_⟩
  · rw [htk, add_token_tokens, ht1]; simp
  · intro tok htok
    rcases List.mem_cons.mp htok with rfl | htok
    · exact ⟨hty, hwf, ws, rest2, hrest, hline, by rw [hcol]⟩
    · obtain ⟨h1, h2, front, back, hsplit, hl, hc⟩ := hall tok htok
      refine ⟨h1, h2, ws ++ w ++ front, back, ?_, ?_, ?_⟩
      · rw [hrest, hsplit]; simp
      · rw [hl, cursor_add_token, hcur, ← cursor_after_append]; simp
      · rw [hc, cursor_add_token, hcur, ← cursor_after_append]; simp
  · intro hok
    rw [hend hok, cursor_add_token, hcur, ← cursor_after_append, hrest]
    simp

namespace Tokenizer

/-- The loop of `scan_tokens`, run with at least as much fuel as there are
unread characters, meets `ScanPos`. -/
theorem scan_tokens_loop_pos (code : List Char) :
    ∀ (fuel : Nat) (t : Tokenizer) (rest : List Char),
      code.drop t.m_current = rest → rest.length ≤ fuel →
      ScanPos t rest (scan_tokens_loop code fuel t) := by
  intro fuel
  induction fuel with
  | zero =>
    intro t rest h hlen
    have hnil : rest = [] := List.length_eq_zero.mp (Nat.le_zero.mp hlen)
    subst hnil
    exact ⟨[], by simp [scan_tokens_loop], by simp, fun _ => rfl⟩
  | succ fuel ih =>
    intro t rest h hlen
    rw [scan_tokens_loop_succ fuel h]
    have hsplit : rest = rest.takeWhile is_skipped ++ rest.dropWhile is_skipped :=
      (List.takeWhile_append_dropWhile is_skipped rest).symm
    cases hd : rest.dropWhile is_skipped with
    | nil =>
      rw [hd, List.append_nil] at hsplit
      refine ⟨[], by simp, by simp, fun _ => ?_⟩
      show cursor (advance_over t (rest.takeWhile is_skipped)) = _
      rw [cursor_advance_over, ← hsplit]
    | cons c r =>
      rw [hd] at hsplit
      have hc : is_skipped c = false := dropWhile_head_false is_skipped rest c r hd
      have hdrop1 : code.drop (advance_over t (rest.takeWhile is_skipped)).m_current
          = c :: r := drop_advance_over (by rw [← hsplit]; exact h)
      have hlen1 : (c :: r).length ≤ fuel + 1 := by
        have := congrArg List.length hsplit
        rw [List.length_append] at this
        omega
      have token : ∀ (p : Char → Bool) (ty : TokenType), p c = true →
          (∀ d, p d = true → is_skipped d = false ∧ isspace d = false) →
          ty ≠ TokenType.Eof → lexeme_ok ty ((c :: r).takeWhile p) →
          ScanPos t rest (scan_tokens_loop code fuel
            ((advance_over (advance_over t (rest.takeWhile is_skipped))
              ((c :: r).takeWhile p)).add_token ty ((c :: r).takeWhile p))) := by
        intro p ty hpc hp hty hlex
        have hsplit2 : c :: r = (c :: r).takeWhile p ++ (c :: r).dropWhile p :=
          (List.takeWhile_append_dropWhile p (c :: r)).symm
        have hne : (c :: r).takeWhile p ≠ [] := by
          rw [List.takeWhile_cons_of_pos hpc]; exact List.cons_ne_nil _ _
        have hdrop2 : code.drop ((advance_over (advance_over t (rest.takeWhile is_skipped))
            ((c :: r).takeWhile p)).add_token ty ((c :: r).takeWhile p)).m_current
            = (c :: r).dropWhile p := by
          rw [add_token_current]
          exact drop_advance_over (by rw [← hsplit2]; exact hdrop1)
        have hlen2 : ((c :: r).dropWhile p).length ≤ fuel := by
          have h1 := congrArg List.length hsplit2
          rw [List.length_append] at h1
          have h2 : 0 < ((c :: r).takeWhile p).length := List.length_pos.mpr hne
          omega
        refine ScanPos_of_token (rest.takeWhile is_skipped)
          ((c :: r).takeWhile p) ((c :: r).dropWhile p)
          ?_ ?_ ?_ hty ⟨hlex, ?_⟩ (ih _ _ hdrop2 hlen2)
        · rw [← hsplit2]; exact hsplit
        · rw [cursor_advance_over, cursor_advance_over, cursor_after_append]
        · simp
        · intro d hd; exact hp d (mem_takeWhile_true p (c :: r) d hd)
      have single : ∀ (ty : TokenType), isspace c = false → ty ≠ TokenType.Eof →
          lexeme_ok ty [c] →
          ScanPos t rest (scan_tokens_loop code fuel
            ((step_char (advance_over t (rest.takeWhile is_skipped)) c).add_token ty [c])) := by
        intro ty hsp hty hlex
        have hdrop2 : code.drop ((step_char (advance_over t (rest.takeWhile is_skipped))
            c).add_token ty [c]).m_current = r := by
          rw [add_token_current]
          exact drop_advance_over (w := [c]) hdrop1
        have hlen2 : r.length ≤ fuel := by
          rw [List.length_cons] at hlen1; omega
        refine ScanPos_of_token (rest.takeWhile is_skipped) [c] r
          hsplit ?_ ?_ hty ⟨hlex, ?_⟩ (ih _ _ hdrop2 hlen2)
        · rw [cursor_step_char, cursor_advance_over, cursor_after_append]; rfl
        · simp
        · intro d hd
          rw [List.mem_singleton.mp hd]; exact ⟨hc, hsp⟩
      simp only
      by_cases ha : (isalpha c || decide (c = '_')) = true
      · rw [if_pos ha]
        have hic : is_ident_char c = true := by
          simp only [Bool.or_eq_true, decide_eq_true_eq] at ha
          simp only [is_ident_char, isalnum, Bool.or_eq_true, decide_eq_true_eq]
          tauto
        refine token is_ident_char TokenType.Identifier hic ?_ (by decide) ⟨?_, ?_⟩
        · intro d hd; exact ⟨is_ident_char_not_skipped hd, is_ident_char_not_space hd⟩
        · refine ⟨c, r.takeWhile is_ident_char, List.takeWhile_cons_of_pos hic, ?_⟩
          simpa using ha
        · intro d hd
          have := mem_takeWhile_true is_ident_char (c :: r) d hd
          simp only [is_ident_char, isalnum, Bool.or_eq_true, decide_eq_true_eq] at this
          tauto
      · rw [if_neg ha]
        by_cases hdg : isdigit c = true
        · rw [if_pos hdg]
          refine token isdigit TokenType.NumberLiteral hdg ?_ (by decide) ⟨?_, ?_⟩
          · intro d hd
            exact ⟨isdigit_not_skipped hd, (isdigit_facts hd).1⟩
          · rw [List.takeWhile_cons_of_pos hdg]; exact List.cons_ne_nil _ _
          · intro d hd; exact mem_takeWhile_true isdigit (c :: r) d hd
        · rw [if_neg hdg]
          by_cases hp : ispunct c = true
          · rw [if_pos hp]
            by_cases ho : is_operator_char c = true
            · rw [if_pos ho]
              exact single TokenType.Operator (is_operator_char_not_space ho) (by decide)
                ⟨c, rfl, ho⟩
            · rw [if_neg ho]
              by_cases hpc : is_punct_char c = true
              · rw [if_pos hpc]
                exact single TokenType.Punctuation (is_punct_char_not_space hpc) (by decide)
                  ⟨c, rfl, hpc⟩
              · rw [if_neg hpc]
                exact ⟨[], by simp, by simp, fun hok => by cases hok⟩
          · rw [if_neg hp]
            exact ⟨[], by simp, by simp, fun hok => by cases hok⟩

end Tokenizer

/-! ## The tokens `tokenize` leaves behind -/

/-- One run of `tokenize`, in terms of the loop of `scan_tokens`. -/
theorem tokenize_run (t : Tokenizer) (code : List Char) :
    t.tokenize code =
      match Tokenizer.scan_tokens_loop code code.length
        { m_line := 1, m_column := 1, m_current := 0, m_tokens := [] } with
      | (.error e, s1) => (.error e, s1)
      | (.ok _, s1) =>
        (.ok (s1.m_tokens ++ [Token.mk TokenType.Eof [] s1.m_line s1.m_column]),
          { s1 with
            m_tokens := s1.m_tokens ++ [Token.mk TokenType.Eof [] s1.m_line s1.m_column] }) :=
  rfl

/-- Every token that `add_token` has appended during a run of `tokenize`,
whether the run succeeds or not, is well formed and stamped where its lexeme
ends. -/
theorem tokenize_emitted (t : Tokenizer) (code : List Char) :
    ∀ tok ∈ (t.tokenize code).2.m_tokens, tok.type ≠ TokenType.Eof →
      well_formed tok ∧ TokenAt (1, 1) code tok := by
  have key := Tokenizer.scan_tokens_loop_pos code code.length
    { m_line := 1, m_column := 1, m_current := 0, m_tokens := [] } code rfl (Nat.le_refl _)
  obtain ⟨new, htk, hall, _⟩ := key
  rw [tokenize_run]
  rcases hout : Tokenizer.scan_tokens_loop code code.length
    { m_line := 1, m_column := 1, m_current := 0, m_tokens := [] } with ⟨r, s1⟩
  rw [hout] at htk
  simp only [List.nil_append] at htk
  cases r with
  | error e =>
    intro tok htok _
    simp only at htok
    rw [htk] at htok
    exact (hall tok htok).2
  | ok u =>
    intro tok htok hty
    simp only at htok
    rw [htk] at htok
    rcases List.mem_append.mp htok with htok | htok
    · exact (hall tok htok).2
    · rw [List.mem_singleton.mp htok] at hty
      exact absurd rfl hty

/-- A run of `tokenize` that succeeds returns the tokens it has appended and the
`Eof` token, stamped with the cursor behind the whole input. -/
theorem tokenize_returned (t : Tokenizer) (code : List Char) (tokens : List Token)
    (h : (t.tokenize code).1 = .ok tokens) :
    ∃ new, tokens = new ++ [Token.mk TokenType.Eof []
        (cursor_after (1, 1) code).1 (cursor_after (1, 1) code).2] ∧
      ∀ tok ∈ new, tok.type ≠ TokenType.Eof ∧ well_formed tok ∧ TokenAt (1, 1) code tok := by
  have key := Tokenizer.scan_tokens_loop_pos code code.length
    { m_line := 1, m_column := 1, m_current := 0, m_tokens := [] } code rfl (Nat.le_refl _)
  obtain ⟨new, htk, hall, hend⟩ := key
  rw [tokenize_run] at h
  rcases hout : Tokenizer.scan_tokens_loop code code.length
    { m_line := 1, m_column := 1, m_current := 0, m_tokens := [] } with ⟨r, s1⟩
  rw [hout] at htk hend h
  simp only [List.nil_append] at htk
  cases r with
  | error e => cases h
  | ok u =>
    simp only [Except.ok.injEq] at h
    have hcur : cursor s1 = cursor_after (1, 1) code := hend rfl
    refine ⟨new, ?_, hall⟩
    rw [← h, htk, ← hcur]
    rfl

/-- The `NumberLiteral` tokens that `tokenize` returns are decimal digit strings. -/
theorem tokenize_digit_lexemes (t : Tokenizer) (code : List Char) (tokens : List Token)
    (h : (t.tokenize code).1 = .ok tokens) : digit_lexemes tokens := by
  obtain ⟨new, hnew, hall⟩ := tokenize_returned t code tokens h
  intro tok htok hty
  rw [hnew] at htok
  rcases List.mem_append.mp htok with htok | htok
  · have hlex := (hall tok htok).2.1.1
    rw [hty] at hlex
    exact hlex
  · rw [List.mem_singleton.mp htok] at hty
    cases hty

theorem chars_after_last_newline_le (w : List Char) :
    chars_after_last_newline w ≤ w.length := by
  unfold chars_after_last_newline
  have := (List.takeWhile_sublist (fun c => decide (c ≠ Char.ofNat 10))
    (l := w.reverse)).length_le
  simpa using this

/-- C11, as the claim states it: the input `mul(99999999999,1)` tokenizes, and
`parse` over its tokens does not complete: `std::stoi` throws `std::out_of_range`
on the first number, a digit run whose value is above `INT_MAX`. -/
theorem stoi_overflow_counterexample :
    ∃ tokens, (Tokenizer.tokenize {} "mul(99999999999,1)".toList).1 = .ok tokens ∧
      Parser.parse {} tokens = .error Fault.out_of_range :=
  ⟨_, rfl, rfl⟩

/-- C11, amended: on the tokens of an input that tokenizes, when the two numbers
of every fully matched multiply pattern are at most `INT_MAX`, every `std::stoi`
conversion succeeds and `parse` completes. -/
theorem parse_completes (t : Tokenizer) (code : List Char) (tokens : List Token)
    (h : (t.tokenize code).1 = .ok tokens) (hfit : operands_fit tokens) :
    ∃ p, Parser.parse {} tokens = .ok p :=
  ⟨_, Parser.parse_upto (tokenize_digit_lexemes t code tokens h) hfit tokens.length⟩

/-- Witness of C11, amended: the input `mul(2147483647,1)`, whose first number is
`INT_MAX`. -/
theorem parse_completes_witness :
    ∃ tokens, (Tokenizer.tokenize {} "mul(2147483647,1)".toList).1 = .ok tokens ∧
      operands_fit tokens ∧ ∃ p, Parser.parse {} tokens = .ok p :=
  ⟨_, rfl, by decide,
    parse_completes {} "mul(2147483647,1)".toList _ rfl (by decide)⟩

/-- C12: every token that `tokenize` returns is well formed for its kind: an
`Identifier` starts with a letter or an underscore and holds letters, digits and
underscores only, a `NumberLiteral` is a non-empty run of digits, an `Operator`
and a `Punctuation` are one character of their set, and no lexeme holds white
space. -/
theorem tokenize_well_formed (t : Tokenizer) (code : List Char) (tokens : List Token)
    (h : (t.tokenize code).1 = .ok tokens) : ∀ tok ∈ tokens, well_formed tok := by
  obtain ⟨new, hnew, hall⟩ := tokenize_returned t code tokens h
  intro tok htok
  rw [hnew] at htok
  rcases List.mem_append.mp htok with htok | htok
  · exact (hall tok htok).2.1
  · rw [List.mem_singleton.mp htok]
    exact ⟨rfl, fun c hc => by cases hc⟩

/-- Witness of C12: the input `x_1 42;`. -/
theorem tokenize_well_formed_witness :
    (Tokenizer.tokenize {} "x_1 42;".toList).1
        = .ok [⟨TokenType.Identifier, "x_1".toList, 1, 1⟩,
            ⟨TokenType.NumberLiteral, "42".toList, 1, 5⟩,
            ⟨TokenType.Punctuation, ";".toList, 1, 7⟩, ⟨TokenType.Eof, [], 1, 8⟩] ∧
      ∀ tok ∈ ([⟨TokenType.Identifier, "x_1".toList, 1, 1⟩,
            ⟨TokenType.NumberLiteral, "42".toList, 1, 5⟩,
            ⟨TokenType.Punctuation, ";".toList, 1, 7⟩, ⟨TokenType.Eof, [], 1, 8⟩] : List Token),
        well_formed tok :=
  ⟨rfl, tokenize_well_formed {} "x_1 42;".toList _ rfl⟩

/-- C14: the `Eof` token that `tokenize` returns is stamped with the final
cursor: its line is 1 plus the number of newlines of the input, its column 1 plus
the number of characters behind the last newline (all characters when there is
no newline). -/
theorem tokenize_eof_position (t : Tokenizer) (code : List Char) (tokens : List Token)
    (h : (t.tokenize code).1 = .ok tokens) :
    ∃ front, tokens = front ++ [Token.mk TokenType.Eof []
      (1 + newline_count code) (1 + chars_after_last_newline code)] := by
  obtain ⟨new, hnew, _⟩ := tokenize_returned t code tokens h
  refine ⟨new, ?_⟩
  rw [hnew, cursor_after_eq]
  simp

/-- Witness of C14: an input of three lines, the last of two characters. -/
theorem tokenize_eof_position_witness :
    (Tokenizer.tokenize {} "a\n\nbc".toList).1
        = .ok [⟨TokenType.Identifier, "a".toList, 1, 1⟩,
            ⟨TokenType.Identifier, "bc".toList, 3, 1⟩, ⟨TokenType.Eof, [], 3, 3⟩] ∧
      newline_count "a\n\nbc".toList = 2 ∧ chars_after_last_newline "a\n\nbc".toList = 2 ∧
      ∃ front, ([⟨TokenType.Identifier, "a".toList, 1, 1⟩,
            ⟨TokenType.Identifier, "bc".toList, 3, 1⟩, ⟨TokenType.Eof, [], 3, 3⟩] : List Token)
          = front ++ [Token.mk TokenType.Eof []
            (1 + newline_count "a\n\nbc".toList) (1 + chars_after_last_newline "a\n\nbc".toList)] :=
  ⟨rfl, by decide, by decide, tokenize_eof_position {} "a\n\nbc".toList _ rfl⟩

/-- C18: on the tokens of an input that tokenizes, with no `int` overflow (the
two numbers of every multiply pattern and the ungated total fit `int`), `parse`
on a fresh `Parser` ends with `0 ≤ amount ≤ uncorrected_amount`. -/
theorem sums_ordered (t : Tokenizer) (code : List Char) (tokens : List Token)
    (h : (t.tokenize code).1 = .ok tokens) (hfit : operands_fit tokens)
    (hsum : ungated_spec tokens ≤ INT_MAX) :
    ∃ p, Parser.parse {} tokens = .ok p ∧ 0 ≤ p.amount ∧ p.amount ≤ p.uncorrected_amount := by
  obtain ⟨h0, h1⟩ := gated_spec_bounds tokens
  have hg : wrap_int (gated_code_upto tokens tokens.length) = gated_spec tokens := by
    rw [gated_code_upto_eq]
    exact wrap_int_of_range h0 (Int.le_trans h1 hsum)
  have hu : wrap_int (ungated_upto tokens tokens.length) = ungated_spec tokens :=
    wrap_int_of_range (Int.le_trans h0 h1) hsum
  refine ⟨_, Parser.parse_upto (tokenize_digit_lexemes t code tokens h) hfit tokens.length,
    ?_, ?_⟩
  · show 0 ≤ wrap_int (gated_code_upto tokens tokens.length)
    rw [hg]; exact h0
  · show wrap_int (gated_code_upto tokens tokens.length)
      ≤ wrap_int (ungated_upto tokens tokens.length)
    rw [hg, hu]; exact h1

/-- Witness of C18: the input `mul(2,3)don't()xmul(4,5)do()mul(6,7)`. -/
theorem sums_ordered_witness :
    (Tokenizer.tokenize {} sample_input).1 = .ok sample_tokens ∧
      operands_fit sample_tokens ∧ ungated_spec sample_tokens ≤ INT_MAX ∧
      ∃ p, Parser.parse {} sample_tokens = .ok p ∧
        0 ≤ p.amount ∧ p.amount ≤ p.uncorrected_amount :=
  ⟨rfl, by decide, by decide,
    sums_ordered {} sample_input sample_tokens rfl (by decide) (by decide)⟩

/-- C19: at an index at most one of the three conditions that `parse` tests
holds, and the loop body gives the same result in whatever order the three tests
are run. -/
theorem tests_order_irrelevant (tokens : List Token) (p : Parser) (i : Nat) :
    (∃ e d m, Parser.enable_cond tokens i = .ok e ∧ Parser.disable_cond tokens i = .ok d ∧
      Parser.mul_cond tokens i = .ok m ∧
      (e && d) = false ∧ (e && m) = false ∧ (d && m) = false) ∧
    Parser.run_actions [Parser.enable_action tokens i, Parser.disable_action tokens i,
        Parser.mul_action tokens i] p = Parser.parse_step tokens p i ∧
    Parser.run_actions [Parser.enable_action tokens i, Parser.mul_action tokens i,
        Parser.disable_action tokens i] p = Parser.parse_step tokens p i ∧
    Parser.run_actions [Parser.disable_action tokens i, Parser.enable_action tokens i,
        Parser.mul_action tokens i] p = Parser.parse_step tokens p i ∧
    Parser.run_actions [Parser.disable_action tokens i, Parser.mul_action tokens i,
        Parser.enable_action tokens i] p = Parser.parse_step tokens p i ∧
    Parser.run_actions [Parser.mul_action tokens i, Parser.enable_action tokens i,
        Parser.disable_action tokens i] p = Parser.parse_step tokens p i ∧
    Parser.run_actions [Parser.mul_action tokens i, Parser.disable_action tokens i,
        Parser.enable_action tokens i] p = Parser.parse_step tokens p i :=
  ⟨⟨_, _, _, Parser.enable_cond_eq tokens i, Parser.disable_cond_eq tokens i,
      Parser.mul_cond_eq tokens i, tests_exclusive tokens i⟩,
    (Parser.parse_step_eq_actions tokens p i).symm, Parser.run_actions_any_order tokens p i⟩

/-- C20: on every token sequence and from every parser state, no element access
`tokens[i + k]` of `parse` is outside the vector: neither one iteration nor the
whole loop ends in the out-of-range fault. -/
theorem parse_in_bounds (tokens : List Token) (p : Parser) :
    Parser.parse p tokens ≠ .error Fault.index_out_of_range ∧
      ∀ q i, Parser.parse_step tokens q i ≠ .error Fault.index_out_of_range :=
  ⟨Parser.foldlM_in_bounds tokens _ p, fun q i => Parser.parse_step_in_bounds tokens q i⟩

/-! ## Tokens are stamped in the order of the input -/

theorem stampedRaw_filter {lc : Nat × Nat} :
    ∀ {rest : List Char} {toks : List Token}, StampedRaw lc rest toks → emitted toks = toks := by
  intro rest toks
  induction toks generalizing lc rest with
  | nil => intro _; rfl
  | cons tok toks ih =>
    rintro ⟨ws, back, _, _, _, _, hty, _, _, hrec⟩
    simp only [emitted, List.filter_cons, hty, ne_eq, not_false_eq_true, decide_True, if_true]
    exact congrArg _ (ih hrec)

/-- A run that starts behind one more token inherits the chain of the run that
starts before it. -/
theorem ScanChain_of_token {t t1 : Tokenizer} {rest : List Char} (ws w rest2 : List Char)
    {ty : TokenType} {out : Result Unit TokenizeError × Tokenizer}
    (hrest : rest = ws ++ (w ++ rest2))
    (hws : ∀ c ∈ ws, Tokenizer.is_skipped c = true)
    (hne : w ≠ [])
    (hw : ∀ c ∈ w, Tokenizer.is_skipped c = false)
    (hcur : cursor t1 = cursor_after (cursor t) (ws ++ w))
    (ht1 : t1.m_tokens = t.m_tokens)
    (hty : ty ≠ TokenType.Eof)
    (hout : ScanChain (t1.add_token ty w) rest2 out) : ScanChain t rest out := by
  obtain ⟨new, htk, hchain⟩ := hout
  have hline : t1.m_line = (cursor_after (cursor t) (ws ++ w)).1 := by rw [← hcur]; rfl
  have hcol : t1.m_column = (cursor_after (cursor t) (ws ++ w)).2 := by rw [← hcur]; rfl
  refine ⟨Token.mk ty w t1.m_line (size_sub t1.m_column w.length) :: new, ?_, ?_⟩
  · rw [htk, add_token_tokens, ht1]; simp
  · refine ⟨ws, rest2, hrest, hws, hne, hw, hty, hline, by rw [hcol], ?_⟩
    rw [cursor_add_token, hcur] at hchain
    exact hchain

namespace Tokenizer

/-- The loop of `scan_tokens`, run with at least as much fuel as there are
unread characters, meets `ScanChain`. -/
theorem scan_tokens_loop_chain (code : List Char) :
    ∀ (fuel : Nat) (t : Tokenizer) (rest : List Char),
      code.drop t.m_current = rest → rest.length ≤ fuel →
      ScanChain t rest (scan_tokens_loop code fuel t) := by
  intro fuel
  induction fuel with
  | zero =>
    intro t rest h hlen
    exact ⟨[], by simp [scan_tokens_loop], trivial⟩
  | succ fuel ih =>
    intro t rest h hlen
    rw [scan_tokens_loop_succ fuel h]
    have hsplit : rest = rest.takeWhile is_skipped ++ rest.dropWhile is_skipped :=
      (List.takeWhile_append_dropWhile is_skipped rest).symm
    have hws : ∀ c ∈ rest.takeWhile is_skipped, is_skipped c = true :=
      fun c hc => mem_takeWhile_true is_skipped rest c hc
    cases hd : rest.dropWhile is_skipped with
    | nil => exact ⟨[], by simp, trivial⟩
    | cons c r =>
      rw [hd] at hsplit
      have hc : is_skipped c = false := dropWhile_head_false is_skipped rest c r hd
      have hdrop1 : code.drop (advance_over t (rest.takeWhile is_skipped)).m_current
          = c :: r := drop_advance_over (by rw [← hsplit]; exact h)
      have hlen1 : (c :: r).length ≤ fuel + 1 := by
        have := congrArg List.length hsplit
        rw [List.length_append] at this
        omega
      have token : ∀ (p : Char → Bool) (ty : TokenType), p c = true →
          (∀ d, p d = true → is_skipped d = false) →
          ty ≠ TokenType.Eof →
          ScanChain t rest (scan_tokens_loop code fuel
            ((advance_over (advance_over t (rest.takeWhile is_skipped))
              ((c :: r).takeWhile p)).add_token ty ((c :: r).takeWhile p))) := by
        intro p ty hpc hp hty
        have hsplit2 : c :: r = (c :: r).takeWhile p ++ (c :: r).dropWhile p :=
          (List.takeWhile_append_dropWhile p (c :: r)).symm
        have hne : (c :: r).takeWhile p ≠ [] := by
          rw [List.takeWhile_cons_of_pos hpc]; exact List.cons_ne_nil _ _
        have hdrop2 : code.drop ((advance_over (advance_over t (rest.takeWhile is_skipped))
            ((c :: r).takeWhile p)).add_token ty ((c :: r).takeWhile p)).m_current
            = (c :: r).dropWhile p := by
          rw [add_token_current]
          exact drop_advance_over (by rw [← hsplit2]; exact hdrop1)
        have hlen2 : ((c :: r).dropWhile p).length ≤ fuel := by
          have h1 := congrArg List.length hsplit2
          rw [List.length_append] at h1
          have h2 : 0 < ((c :: r).takeWhile p).length := List.length_pos.mpr hne
          omega
        refine ScanChain_of_token (rest.takeWhile is_skipped)
          ((c :: r).takeWhile p) ((c :: r).dropWhile p)
          ?_ hws hne ?_ ?_ ?_ hty (ih _ _ hdrop2 hlen2)
        · rw [← hsplit2]; exact hsplit
        · intro d hd; exact hp d (mem_takeWhile_true p (c :: r) d hd)
        · rw [cursor_advance_over, cursor_advance_over, cursor_after_append]
        · simp
      have single : ∀ (ty : TokenType), ty ≠ TokenType.Eof →
          ScanChain t rest (scan_tokens_loop code fuel
            ((step_char (advance_over t (rest.takeWhile is_skipped)) c).add_token ty [c])) := by
        intro ty hty
        have hdrop2 : code.drop ((step_char (advance_over t (rest.takeWhile is_skipped))
            c).add_token ty [c]).m_current = r := by
          rw [add_token_current]
          exact drop_advance_over (w := [c]) hdrop1
        have hlen2 : r.length ≤ fuel := by
          rw [List.length_cons] at hlen1; omega
        refine ScanChain_of_token (rest.takeWhile is_skipped) [c] r
          hsplit hws (List.cons_ne_nil _ _) ?_ ?_ ?_ hty (ih _ _ hdrop2 hlen2)
        · intro d hd
          rw [List.mem_singleton.mp hd]; exact hc
        · rw [cursor_step_char, cursor_advance_over, cursor_after_append]; rfl
        · simp
      simp only
      by_cases ha : (isalpha c || decide (c = '_')) = true
      · rw [if_pos ha]
        have hic : is_ident_char c = true := by
          simp only [Bool.or_eq_true, decide_eq_true_eq] at ha
          simp only [is_ident_char, isalnum, Bool.or_eq_true, decide_eq_true_eq]
          tauto
        exact token is_ident_char TokenType.Identifier hic
          (fun d hd => is_ident_char_not_skipped hd) (by decide)
      · rw [if_neg ha]
        by_cases hdg : isdigit c = true
        · rw [if_pos hdg]
          exact token isdigit TokenType.NumberLiteral hdg
            (fun d hd => isdigit_not_skipped hd) (by decide)
        · rw [if_neg hdg]
          by_cases hp : ispunct c = true
          · rw [if_pos hp]
            by_cases ho : is_operator_char c = true
            · rw [if_pos ho]
              exact single TokenType.Operator (by decide)
            · rw [if_neg ho]
              by_cases hpc : is_punct_char c = true
              · rw [if_pos hpc]
                exact single TokenType.Punctuation (by decide)
              · rw [if_neg hpc]
                exact ⟨[], by simp, trivial⟩
          · rw [if_neg hp]
            exact ⟨[], by simp, trivial⟩

end Tokenizer

/-- The tokens that `add_token` has appended during a run of `tokenize`, whether
the run succeeds or not, were scanned from the input one after the other. -/
theorem tokenize_chain (t : Tokenizer) (code : List Char) :
    StampedRaw (1, 1) code (emitted (t.tokenize code).2.m_tokens) := by
  have key := Tokenizer.scan_tokens_loop_chain code code.length
    { m_line := 1, m_column := 1, m_current := 0, m_tokens := [] } code rfl (Nat.le_refl _)
  obtain ⟨new, htk, hchain⟩ := key
  rw [tokenize_run]
  rcases hout : Tokenizer.scan_tokens_loop code code.length
    { m_line := 1, m_column := 1, m_current := 0, m_tokens := [] } with ⟨r, s1⟩
  rw [hout] at htk
  simp only [List.nil_append] at htk
  have hcur : cursor ({ m_line := 1, m_column := 1, m_current := 0, m_tokens := [] } : Tokenizer)
      = (1, 1) := rfl
  rw [hcur] at hchain
  have hfil := stampedRaw_filter hchain
  cases r with
  | error e =>
    simp only
    rw [htk, hfil]
    exact hchain
  | ok u =>
    simp only
    rw [htk]
    have : emitted (new ++ [Token.mk TokenType.Eof [] s1.m_line s1.m_column]) = new := by
      simp only [emitted, List.filter_append] at hfil ⊢
      rw [hfil]
      simp
    rw [this]
    exact hchain

/-- With no wrap of the column, a chain of stamped tokens carries the positions
of the first characters of its lexemes. -/
theorem positioned_of_stampedRaw :
    ∀ (toks : List Token) (front rest : List Char),
      (front ++ rest).length + 1 < SIZE_MOD →
      StampedRaw (cursor_after (1, 1) front) rest toks → Positioned front rest toks
  | [], _, _, _, _ => trivial
  | tok :: toks, front, rest, hlen, h => by
    obtain ⟨ws, back, hsplit, hws, hne, hlex, _, hl, hc, hrec⟩ := h
    have hnl : ∀ c ∈ tok.lexeme, c ≠ Char.ofNat 10 :=
      fun c hc => not_newline_of_not_skipped (hlex c hc)
    have hcur1 : cursor_after (cursor_after (1, 1) front) (ws ++ tok.lexeme)
        = cursor_after (1, 1) (front ++ ws ++ tok.lexeme) := by
      rw [← cursor_after_append, List.append_assoc]
    have hcur2 : cursor_after (1, 1) (front ++ ws ++ tok.lexeme)
        = ((cursor_after (1, 1) (front ++ ws)).1,
            (cursor_after (1, 1) (front ++ ws)).2 + tok.lexeme.length) := by
      rw [cursor_after_append, cursor_after_of_no_newline _ _ hnl]
    have hfw := cursor_after_eq (1, 1) (front ++ ws)
    have hcol : (cursor_after (1, 1) (front ++ ws)).2
        = 1 + chars_after_last_newline (front ++ ws) := by
      rw [hfw]; simp
    have hline : (cursor_after (1, 1) (front ++ ws)).1 = 1 + newline_count (front ++ ws) := by
      rw [hfw]
    have hbound : (cursor_after (1, 1) (front ++ ws)).2 + tok.lexeme.length < SIZE_MOD := by
      have h1 := chars_after_last_newline_le (front ++ ws)
      have h2 := congrArg List.length hsplit
      simp only [List.length_append] at h2 h1 hlen
      omega
    rw [hcur1, hcur2] at hl hc
    simp only at hl hc
    rw [size_sub_add _ _ hbound] at hc
    rw [hcur1] at hrec
    have hlen2 : ((front ++ ws ++ tok.lexeme) ++ back).length + 1 < SIZE_MOD := by
      rw [hsplit] at hlen
      simpa [List.append_assoc] using hlen
    refine ⟨ws, back, hsplit, hws, hne, hlex, ?_, ?_, hl, hc, ?_, ?_,
      positioned_of_stampedRaw toks _ back hlen2 hrec⟩
    · rw [hcur2]; simp
    · rw [hcur2, hc]; simp
    · rw [hl, hline]
    · rw [hc, hcol]

/-- The white space in front of a lexeme is all the white space there is. -/
theorem takeWhile_of_split :
    ∀ (ws : List Char) {rest lx back : List Char}, rest = ws ++ (lx ++ back) →
      (∀ c ∈ ws, Tokenizer.is_skipped c = true) → lx ≠ [] →
      (∀ c ∈ lx, Tokenizer.is_skipped c = false) →
      ws = rest.takeWhile Tokenizer.is_skipped
  | [], rest, lx, back, h, _, hne, hlx => by
    obtain ⟨c, hc⟩ := List.exists_mem_of_ne_nil lx hne
    cases lx with
    | nil => exact absurd rfl hne
    | cons d l =>
      have hd := hlx d (List.mem_cons_self d l)
      rw [h]
      simp [List.takeWhile_cons, hd]
  | a :: ws, rest, lx, back, h, hws, hne, hlx => by
    have ha := hws a (List.mem_cons_self a ws)
    have ih := takeWhile_of_split ws (rfl : ws ++ (lx ++ back) = ws ++ (lx ++ back))
      (fun c hc => hws c (List.mem_cons_of_mem a hc)) hne hlx
    rw [h, List.cons_append, List.takeWhile_cons_of_pos ha, ← ih]

/-- The stamps of a chain of tokens are determined by the input and the
lexemes: two chains over the same input with the same lexemes carry the same
lines and columns. -/
theorem positioned_unique :
    ∀ (toks toks2 : List Token) (front rest : List Char),
      Positioned front rest toks → Positioned front rest toks2 →
      toks.map Token.lexeme = toks2.map Token.lexeme →
      toks.map (fun k => (k.line, k.column)) = toks2.map (fun k => (k.line, k.column))
  | [], [], _, _, _, _, _ => rfl
  | [], _ :: _, _, _, _, _, h => by cases h
  | _ :: _, [], _, _, _, _, h => by cases h
  | tok :: toks, tok2 :: toks2, front, rest, h1, h2, hlex => by
    obtain ⟨ws, back, hsplit, hws, hne, hlx, _, _, _, _, hl, hc, hrec⟩ := h1
    obtain ⟨ws2, back2, hsplit2, hws2, hne2, hlx2, _, _, _, _, hl2, hc2, hrec2⟩ := h2
    simp only [List.map_cons, List.cons.injEq] at hlex
    obtain ⟨hlexeme, hlexes⟩ := hlex
    have hw : ws = ws2 := by
      rw [takeWhile_of_split ws hsplit hws hne hlx,
        takeWhile_of_split ws2 hsplit2 hws2 hne2 hlx2]
    subst hw
    have hback : back = back2 := by
      rw [hsplit, hlexeme] at hsplit2
      exact List.append_cancel_left (List.append_cancel_left hsplit2)
    subst hback
    rw [← hlexeme] at hrec2
    have ih := positioned_unique toks toks2 _ _ hrec hrec2 hlexes
    simp only [List.map_cons, List.cons.injEq, Prod.mk.injEq]
    exact ⟨⟨by rw [hl, hl2], by rw [hc, hc2]⟩, ih⟩

/-- C15: for an input that a `std::string` can hold (its length plus one is
below `2^64`), the tokens that `add_token` has appended, whether `tokenize`
succeeds or not, were scanned from the input one after the other; for each of
them the lexeme is not longer than the column of the cursor behind it, so the
subtraction of `add_token` does not wrap, and the token is stamped with the line
and column of the cursor where scanning of it began, behind everything in front
of it and the white space skipped: the 1-based line and column of the first
character of its lexeme. -/
theorem token_positions (t : Tokenizer) (code : List Char)
    (hlen : code.length + 1 < SIZE_MOD) :
    Positioned [] code (emitted (t.tokenize code).2.m_tokens) :=
  positioned_of_stampedRaw _ [] code (by simpa using hlen) (tokenize_chain t code)

/-- Witness of C15: the input `a`, space, `a`, newline, `cd=`, on which
`tokenize` fails behind three tokens, two of them with the same lexeme. -/
theorem token_positions_witness :
    "a a\ncd=".toList.length + 1 < SIZE_MOD ∧
      emitted (Tokenizer.tokenize {} "a a\ncd=".toList).2.m_tokens
        = [⟨TokenType.Identifier, "a".toList, 1, 1⟩, ⟨TokenType.Identifier, "a".toList, 1, 3⟩,
            ⟨TokenType.Identifier, "cd".toList, 2, 1⟩] ∧
      Positioned [] "a a\ncd=".toList
        (emitted (Tokenizer.tokenize {} "a a\ncd=".toList).2.m_tokens) :=
  ⟨by decide, rfl, token_positions {} "a a\ncd=".toList (by decide)⟩

end Day3

namespace Day2

/-! ## `is_report_safe` -/

/-- One iteration on an exact difference: a zero or a step above three returns
`false`, any other difference updates the two flags. -/
theorem is_report_safe_step_eq {levels : List Int} {i : Nat}
    (h : -Day3.INT_MAX ≤ diff_at levels i ∧ diff_at levels i ≤ Day3.INT_MAX)
    (flags : Bool × Bool) :
    is_report_safe_step levels flags i =
      if diff_at levels i = 0 ∨ diff_at levels i > 3 ∨ diff_at levels i < -3 then .error false
      else .ok (flags.1 && decide (diff_at levels i > 0),
        flags.2 && decide (diff_at levels i < 0)) := by
  have hw : Day3.wrap_int (levels.getD i 0 - levels.getD (i - 1) 0) = diff_at levels i := by
    simp only [Day3.wrap_int, Day3.INT_MAX, diff_at] at *
    omega
  simp only [is_report_safe_step, hw]
  have habs : int_abs (diff_at levels i) > 3 ↔ diff_at levels i > 3 ∨ diff_at levels i < -3 := by
    simp only [int_abs, Day3.wrap_int, Day3.INT_MAX] at *
    split <;> omega
  simp only [habs]

/-- The loop over a list of indices at which the differences are exact. -/
theorem is_report_safe_fold (levels : List Int) :
    ∀ (l : List Nat) (flags : Bool × Bool),
      (∀ i ∈ l, -Day3.INT_MAX ≤ diff_at levels i ∧ diff_at levels i ≤ Day3.INT_MAX) →
      match l.foldlM (is_report_safe_step levels) flags with
      | .error r =>
        r = false ∧ ∃ i ∈ l, diff_at levels i = 0 ∨ diff_at levels i > 3 ∨ diff_at levels i < -3
      | .ok f =>
        (∀ i ∈ l, diff_at levels i ≠ 0 ∧ -3 ≤ diff_at levels i ∧ diff_at levels i ≤ 3) ∧
        (f.1 = true ↔ flags.1 = true ∧ ∀ i ∈ l, diff_at levels i > 0) ∧
        (f.2 = true ↔ flags.2 = true ∧ ∀ i ∈ l, diff_at levels i < 0)
  | [], flags, _ => by simp [pure, Except.pure]
  | i :: l, flags, h => by
    rw [List.foldlM_cons, is_report_safe_step_eq (h i (List.mem_cons_self i l))]
    by_cases hbad : diff_at levels i = 0 ∨ diff_at levels i > 3 ∨ diff_at levels i < -3
    · rw [if_pos hbad]
      exact ⟨rfl, i, List.mem_cons_self i l, hbad⟩
    · rw [if_neg hbad]
      have ih := is_report_safe_fold levels l
        (flags.1 && decide (diff_at levels i > 0), flags.2 && decide (diff_at levels i < 0))
        (fun j hj => h j (List.mem_cons_of_mem i hj))
      simp only [bind, Except.bind]
      cases hres : l.foldlM (is_report_safe_step levels)
          (flags.1 && decide (diff_at levels i > 0),
            flags.2 && decide (diff_at levels i < 0)) with
      | error r =>
        rw [hres] at ih
        obtain ⟨hr, j, hj, hjbad⟩ := ih
        exact ⟨hr, j, List.mem_cons_of_mem i hj, hjbad⟩
      | ok f =>
        rw [hres] at ih
        obtain ⟨hall, h1, h2⟩ := ih
        refine ⟨?_, ?_, ?_⟩
        · intro j hj
          rcases List.mem_cons.mp hj with rfl | hj
          · omega
          · exact hall j hj
        · rw [h1]
          simp only [Bool.and_eq_true, decide_eq_true_eq, List.mem_cons, forall_eq_or_imp]
          tauto
        · rw [h2]
          simp only [Bool.and_eq_true, decide_eq_true_eq, List.mem_cons, forall_eq_or_imp]
          tauto

end Day2

namespace Day2

/-- C16, as the claim states it: on the report `0, -2147483648` the one
difference, `INT_MIN`, is exact and lies in neither set, yet `is_report_safe`
returns `true`: `std::abs` of `INT_MIN` is `INT_MIN` again, which is not above 3. -/
theorem abs_overflow_counterexample :
    Day3.wrap_int (-2147483648 - 0) = -2147483648 - 0 ∧
      is_report_safe [0, -2147483648] = true ∧
      ¬ ([(0 : Int), -2147483648].length ≤ 1 ∨ diffs_in [0, -2147483648] 1 3 ∨
        diffs_in [0, -2147483648] (-3) (-1)) ∧
      ¬ (is_report_safe [0, -2147483648] = true ↔
        [(0 : Int), -2147483648].length ≤ 1 ∨ diffs_in [0, -2147483648] 1 3 ∨
          diffs_in [0, -2147483648] (-3) (-1)) :=
  ⟨by decide, by decide, by decide, by decide⟩

/-- C16, amended: when the differences and their absolute values are exact, that
is every consecutive difference lies between `-INT_MAX` and `INT_MAX`,
`is_report_safe` returns `true` exactly when the list has at most one element,
or every consecutive difference `levels[i] - levels[i-1]` is 1, 2 or 3, or every
one is -3, -2 or -1. -/
theorem is_report_safe_iff (levels : List Int) (h : exact_diffs levels) :
    is_report_safe levels = true ↔
      levels.length ≤ 1 ∨ diffs_in levels 1 3 ∨ diffs_in levels (-3) (-1) := by
  unfold is_report_safe
  by_cases hlen : levels.length ≤ 1
  · simp [hlen]
  · rw [if_neg hlen]
    have hmem : ∀ i, i ∈ List.range' 1 (levels.length - 1) ↔ 0 < i ∧ i < levels.length := by
      intro i; rw [List.mem_range'_1]; omega
    have key := is_report_safe_fold levels (List.range' 1 (levels.length - 1)) (true, true)
      (fun i hi => h i ((hmem i).mp hi).2 ((hmem i).mp hi).1)
    cases hres : (List.range' 1 (levels.length - 1)).foldlM (is_report_safe_step levels)
        (true, true) with
    | error r =>
      rw [hres] at key
      obtain ⟨hr, i, hi, hbad⟩ := key
      obtain ⟨hi0, hin⟩ := (hmem i).mp hi
      simp only [hr, Bool.false_eq_true, false_iff, not_or]
      refine ⟨hlen, fun hd => ?_, fun hd => ?_⟩
      · have := hd i hin hi0; omega
      · have := hd i hin hi0; omega
    | ok f =>
      rw [hres] at key
      obtain ⟨hall, h1, h2⟩ := key
      simp only [Bool.or_eq_true, h1, h2, true_and]
      constructor
      · rintro (hpos | hneg)
        · refine Or.inr (Or.inl fun i hin hi0 => ?_)
          have ha := hall i ((hmem i).mpr ⟨hi0, hin⟩)
          have hp := hpos i ((hmem i).mpr ⟨hi0, hin⟩)
          omega
        · refine Or.inr (Or.inr fun i hin hi0 => ?_)
          have ha := hall i ((hmem i).mpr ⟨hi0, hin⟩)
          have hp := hneg i ((hmem i).mpr ⟨hi0, hin⟩)
          omega
      · rintro (hl | hd | hd)
        · exact absurd hl hlen
        · refine Or.inl fun i hi => ?_
          have := hd i ((hmem i).mp hi).2 ((hmem i).mp hi).1
          omega
        · refine Or.inr fun i hi => ?_
          have := hd i ((hmem i).mp hi).2 ((hmem i).mp hi).1
          omega

/-- Witness of C16, amended: the first report of `day2`, which is safe, decreasing. -/
theorem is_report_safe_iff_witness :
    exact_diffs [7, 6, 4, 2, 1] ∧ is_report_safe [7, 6, 4, 2, 1] = true ∧
      (is_report_safe [7, 6, 4, 2, 1] = true ↔
        [7, 6, 4, 2, 1].length ≤ 1 ∨ diffs_in [7, 6, 4, 2, 1] 1 3 ∨
          diffs_in [7, 6, 4, 2, 1] (-3) (-1)) :=
  ⟨by decide, by decide, is_report_safe_iff [7, 6, 4, 2, 1] (by decide)⟩

/-! ## `can_report_be_made_safe` -/

/-- The inner loop leaves out the element at `remove_idx` and keeps the order. -/
theorem modified_levels_eq (levels : List Int) (k : Nat) :
    modified_levels levels k = levels.eraseIdx k := by
  have key : ∀ n, n ≤ levels.length →
      (List.range n).foldl (fun m i => if i ≠ k then m ++ [levels.getD i 0] else m) []
        = (levels.take n).eraseIdx k := by
    intro n
    induction n with
    | zero => intro _; rfl
    | succ n ih =>
      intro hn
      have hlt : n < levels.length := hn
      rw [List.range_succ, List.foldl_append, ih (Nat.le_of_lt hlt), List.take_succ,
        List.getElem?_eq_getElem hlt]
      have hget : levels.getD n 0 = levels[n] := List.getD_eq_getElem _ _ hlt
      have hlen : (levels.take n).length = n := by
        rw [List.length_take]; omega
      simp only [List.foldl_cons, List.foldl_nil, Option.toList_some, hget]
      by_cases hk : n = k
      · subst hk
        rw [List.eraseIdx_append_of_length_le (Nat.le_of_eq hlen),
          List.eraseIdx_of_length_le (Nat.le_of_eq hlen)]
        simp [hlen]
      · rw [if_pos hk]
        by_cases hkn : k < n
        · rw [List.eraseIdx_append_of_lt_length (by rw [hlen]; exact hkn)]
        · rw [List.eraseIdx_of_length_le (by rw [hlen]; omega),
            List.eraseIdx_of_length_le (by rw [List.length_append, hlen]; simp; omega)]
  have := key levels.length (Nat.le_refl _)
  rw [List.take_length] at this
  exact this

/-- The outer loop returns `true` at the first index whose removal gives a safe
report, and falls through when there is none. -/
theorem can_report_be_made_safe_fold (levels : List Int) :
    ∀ (l : List Nat),
      (match l.foldlM (can_report_be_made_safe_step levels) () with
        | .error r => r
        | .ok _ => false)
      = l.any (fun k => is_report_safe (modified_levels levels k))
  | [] => rfl
  | k :: l => by
    rw [List.foldlM_cons, List.any_cons]
    have ih := can_report_be_made_safe_fold levels l
    cases hk : is_report_safe (modified_levels levels k) with
    | true => simp [can_report_be_made_safe_step, hk, bind, Except.bind]
    | false =>
      simp only [can_report_be_made_safe_step, hk, Bool.false_eq_true, if_false, bind,
        Except.bind, Bool.false_or]
      exact ih

/-- C17: `can_report_be_made_safe` returns `true` exactly when `is_report_safe`
holds of the list or of the list without the element at one index; so a safe
report is safe with dampening too. -/
theorem can_report_be_made_safe_iff (levels : List Int) :
    (can_report_be_made_safe levels = true ↔
      is_report_safe levels = true ∨
        ∃ k, k < levels.length ∧ is_report_safe (levels.eraseIdx k) = true) ∧
    (is_report_safe levels = true → can_report_be_made_safe levels = true) := by
  have hmain : can_report_be_made_safe levels = true ↔
      is_report_safe levels = true ∨
        ∃ k, k < levels.length ∧ is_report_safe (levels.eraseIdx k) = true := by
    unfold can_report_be_made_safe
    cases hs : is_report_safe levels with
    | true => simp
    | false =>
      simp only [Bool.false_eq_true, if_false, false_or]
      rw [can_report_be_made_safe_fold, List.any_eq_true]
      constructor
      · rintro ⟨k, hk, hsafe⟩
        exact ⟨k, List.mem_range.mp hk, by rw [← modified_levels_eq]; exact hsafe⟩
      · rintro ⟨k, hk, hsafe⟩
        exact ⟨k, List.mem_range.mpr hk, by rw [modified_levels_eq]; exact hsafe⟩
  exact ⟨hmain, fun hs => hmain.mpr (Or.inl hs)⟩

end Day2
